import Mathlib

/-!
Verification of the gx402 structured codec, streaming extractor, orchestrator
reconciliation and payment-retry logic, as shallowly embedded Lean definitions
translated from the TypeScript sources (src/src/xml.ts, src/src/types.ts,
src/inference.ts, src/src/payments.ts).

JavaScript runtime values are modelled by `JsVal`.  A JS number is represented
by its decimal literal string: the codec only ever creates numbers by applying
`Number(...)` to strings matching the pattern digits(.digits)? and only ever
consumes them through `String(...)`, so on every value reachable here the
literal representation is exact.
-/

set_option maxHeartbeats 1000000
set_option maxRecDepth 100000
set_option linter.unusedVariables false

/-- Model of a JavaScript runtime value as used by the codec and orchestrator.
Numbers carry their decimal literal (see module docstring). -/
inductive JsVal where
  | null : JsVal
  | undef : JsVal
  | str : String → JsVal
  | num : String → JsVal
  | bool : Bool → JsVal
  | arr : List JsVal → JsVal
  | obj : List (String × JsVal) → JsVal

/-- JavaScript `x === undefined || x === null` on values. -/
def isNullOrUndef : JsVal → Bool
  | .null => true
  | .undef => true
  | _ => false

/-- JavaScript `typeof x === "object"`: true for plain objects, arrays and null. -/
def typeofObject : JsVal → Bool
  | .obj _ => true
  | .arr _ => true
  | .null => true
  | _ => false

mutual
/-- JavaScript `String(x)` for the values reachable in this codebase. -/
def jsString : JsVal → String
  | .null => "null"
  | .undef => "undefined"
  | .str s => s
  | .num lit => lit
  | .bool b => if b then "true" else "false"
  | .arr xs => String.intercalate "," (jsStringElems xs)
  | .obj _ => "[object Object]"

/-- Array elements under `String(...)`: null/undefined print as empty. -/
def jsStringElems : List JsVal → List String
  | [] => []
  | .null :: rest => "" :: jsStringElems rest
  | .undef :: rest => "" :: jsStringElems rest
  | v :: rest => jsString v :: jsStringElems rest
end

/-- Characters allowed by the sanitizer's keep-class `[a-zA-Z0-9_]`. -/
def tagSafeChar (c : Char) : Bool := c.isAlpha || c.isDigit || c = '_'

/-- From xml.ts `sanitizeTagName`: replace characters outside `[a-zA-Z0-9_]`
with `_`, then prepend `tag_` before a non-letter first character. -/
def sanitizeTagName (name : String) : String :=
  let repl := name.data.map (fun c => if tagSafeChar c then c else '_')
  match repl with
  | [] => ""
  | c :: rest =>
      if c.isAlpha then String.mk (c :: rest)
      else String.mk ('t' :: 'a' :: 'g' :: '_' :: c :: rest)

/-- From xml.ts `wrapTag`, producing the character list of
`<safeTag>content</safeTag>`. -/
def wrapTag (tag : String) (content : List Char) : List Char :=
  let safe := (sanitizeTagName tag).data
  '<' :: safe ++ '>' :: content ++ '<' :: '/' :: safe ++ ['>']

/-- Whether every entry of an object has a null/undefined value, i.e. the
source's `entries.length === 0` after its null/undefined filter. -/
def allEntriesDropped (fs : List (String × JsVal)) : Bool :=
  fs.all (fun kv => isNullOrUndef kv.2)

mutual
/-- From xml.ts `objToXml`, at the level of character lists.  The source
filters null/undefined entries up front and then folds the remainder; here
the filter is fused into `objEntriesChars`, which skips those entries
in place (same output). -/
def objToXmlChars : JsVal → Option String → List Char
  | .arr xs, parentKey => wrapTag (parentKey.getD "array") (arrayItemsChars xs)
  | .obj fs, parentKey =>
      if allEntriesDropped fs then wrapTag (parentKey.getD "empty") []
      else
        match parentKey with
        | some k => wrapTag k (objEntriesChars fs)
        | none => objEntriesChars fs
  | v, parentKey => wrapTag (parentKey.getD "value") (jsString v).data

/-- Array elements: each wrapped in an `item` tag; structured elements recurse
with no parent key, scalars are stringified. -/
def arrayItemsChars : List JsVal → List Char
  | [] => []
  | x :: rest =>
      wrapTag "item" (if typeofObject x then objToXmlChars x none else (jsString x).data)
        ++ arrayItemsChars rest

/-- Object entries: null/undefined values are skipped (the source's filter);
structured values recurse with the key as parent tag, scalar values are
emitted inline with the raw (unsanitized) key. -/
def objEntriesChars : List (String × JsVal) → List Char
  | [] => []
  | (key, value) :: rest =>
      if isNullOrUndef value then objEntriesChars rest
      else
        (if typeofObject value then objToXmlChars value (some key)
         else '<' :: key.data ++ '>' :: (jsString value).data ++ '<' :: '/' :: key.data ++ ['>'])
          ++ objEntriesChars rest
end

/-- From xml.ts `objToXml` (string-valued entry point). -/
def objToXml (v : JsVal) (parentKey : Option String) : String :=
  String.mk (objToXmlChars v parentKey)

/-- JavaScript whitespace class `\s` restricted to the ASCII range (the only
characters relevant to this development). -/
def jsWhitespace (c : Char) : Bool :=
  c = ' ' || c = '\t' || c = '\n' || c = '\r' || c = '\x0b' || c = '\x0c'

/-- JavaScript `String.prototype.trim` on character lists. -/
def trimChars (cs : List Char) : List Char :=
  ((cs.dropWhile jsWhitespace).reverse.dropWhile jsWhitespace).reverse

/-- JavaScript `s.trim()`. -/
def jsTrim (s : String) : String := String.mk (trimChars s.data)

/-- Leftmost occurrence split: `some (pre, post)` when `cs = pre ++ needle ++ post`
with the shown occurrence leftmost, `none` when `needle` never occurs in `cs`. -/
def splitOnFirst (needle : List Char) : List Char → Option (List Char × List Char)
  | [] => if needle.isPrefixOf ([] : List Char) then some ([], []) else none
  | c :: rest =>
      if needle.isPrefixOf (c :: rest) then some ([], (c :: rest).drop needle.length)
      else (splitOnFirst needle rest).map (fun pq => (c :: pq.1, pq.2))

/-- Character list of the closing tag `</tag>`. -/
def closeTagChars (tag : List Char) : List Char := '<' :: '/' :: tag ++ ['>']

/-- Characters admissible in the decoder's tag-name capture group `[^>\s/]+`. -/
def tagNameChar (c : Char) : Bool := !(c = '>') && !(jsWhitespace c) && !(c = '/')

/-- Backtracking over the greedy tag-name group: try tag-name prefixes of `run`
from length `len` down to 1, taking for each the lazy (leftmost) matching
close tag in `afterGt`.  This reproduces the JS engine's search order for
the decoder's tag regex, in which the characters between `<` and the first
`>` are fixed and only the captured name prefix backtracks. -/
def tryCloseSearch (run : List Char) (afterGt : List Char) : Nat → Option (List Char × List Char × List Char)
  | 0 => none
  | len + 1 =>
      let tag := run.take (len + 1)
      match splitOnFirst (closeTagChars tag) afterGt with
      | some (content, rest) => some (tag, content, rest)
      | none => tryCloseSearch run afterGt len

/-- Attempt the decoder's tag regex at the head of `cs` (which must start with
`<`): the first `>` ends the open tag, the maximal run of name characters
after `<` is the greedy capture, and `tryCloseSearch` resolves backtracking.
Returns (tag, captured content, remainder after the close tag). -/
def tryOpenTag : List Char → Option (List Char × List Char × List Char)
  | '<' :: rest =>
      match splitOnFirst ['>'] rest with
      | none => none
      | some (runAll, afterGt) =>
          let longest := runAll.takeWhile tagNameChar
          tryCloseSearch longest afterGt longest.length
  | _ => none

/-- The decoder's global regex loop, fuelled (one unit per scanning step; every
successful match consumes at least one character, so `cs.length` units
always suffice — see `scanTagsF_fuel`). Yields the matched (tag, content)
pairs in order. -/
def scanTagsF : Nat → List Char → List (List Char × List Char)
  | 0, _ => []
  | _ + 1, [] => []
  | fuel + 1, c :: rest =>
      if c = '<' then
        match tryOpenTag (c :: rest) with
        | some (tag, content, remaining) => (tag, content) :: scanTagsF fuel remaining
        | none => scanTagsF fuel rest
      else scanTagsF fuel rest

/-- All (tag, content) matches of the decoder's tag regex over `cs`, in match
order. -/
def scanTags (cs : List Char) : List (List Char × List Char) :=
  scanTagsF cs.length cs

/-- The decoder's result accumulation: first occurrence binds the key, a second
occurrence turns the slot into an array, further occurrences push. -/
def insertTagResult : List (String × JsVal) → String → JsVal → List (String × JsVal)
  | [], key, child => [(key, child)]
  | (k, v) :: rest, key, child =>
      if k = key then
        match v with
        | .arr xs => (k, .arr (xs ++ [child])) :: rest
        | _ => (k, .arr [v, child]) :: rest
      else (k, v) :: insertTagResult rest key child

/-- The decoder's numeric-literal test `^\d+(\.\d+)?$`. -/
def numericLiteral (cs : List Char) : Bool :=
  let intPart := cs.takeWhile Char.isDigit
  let rest := cs.drop intPart.length
  !intPart.isEmpty &&
    (rest.isEmpty ||
      (match rest with
       | '.' :: frac => !frac.isEmpty && frac.all Char.isDigit
       | _ => false))

/-- The decoder's scalar coercion of a trimmed tag content: boolean literals,
then numeric literals, else the raw string. -/
def coerceScalar (trimmed : List Char) : JsVal :=
  if trimmed = "true".data then .bool true
  else if trimmed = "false".data then .bool false
  else if numericLiteral trimmed then .num (String.mk trimmed)
  else .str (String.mk trimmed)

/-- A single step of the decoder's match loop, accumulating one (tag, content)
match whose child value is already computed. -/
def accumulateMatch (acc : List (String × JsVal)) (tag : List Char) (child : JsVal) :
    List (String × JsVal) :=
  insertTagResult acc (String.mk tag) child

/-- From xml.ts `xmlToObj`'s inner `parseElement`: trim; bare string when no
`<` appears or no tag pair matches; otherwise accumulate matched tags
(recursing on contents that still contain `<`) and unwrap a sole `item`
key into a bare array.  `fuel` bounds the nesting recursion; the entry
point supplies enough for any input. -/
def parseElement : Nat → List Char → JsVal
  | fuel, rawContent =>
      let content := trimChars rawContent
      if !content.contains '<' then .str (String.mk content)
      else
        match scanTags content with
        | [] => .str (String.mk content)
        | m :: ms =>
            let childOf : List Char → JsVal := fun tagContent =>
              let trimmed := trimChars tagContent
              if trimmed.contains '<' then
                match fuel with
                | 0 => JsVal.str (String.mk trimmed)
                | fuel' + 1 => parseElement fuel' tagContent
              else coerceScalar trimmed
            match (m :: ms).foldl (fun acc tc => accumulateMatch acc tc.1 (childOf tc.2)) [] with
            | [(key, val)] =>
                if key = "item" then
                  match val with
                  | .arr xs => .arr xs
                  | v => .arr [v]
                else .obj [(key, val)]
            | result => .obj result

/-- From xml.ts `xmlToObj`. -/
def xmlToObj (xmlContent : String) : JsVal :=
  parseElement xmlContent.data.length xmlContent.data

/-!
Streaming extractor (src/inference.ts, `callLLM`'s `processChunk` closure and
the end-of-stream flush).  The SSE framing around it is transport glue; the
extractor itself consumes decoded characters one at a time.
-/

/-- The extractor's mutable state: `tagStack` (root to innermost open tag),
the tag name being assembled, the pending word buffer, and whether the
cursor is inside `<...>`. -/
structure ExtractorState where
  tagStack : List String
  currentTagName : String
  wordBuffer : String
  insideTag : Bool

/-- JavaScript `tagStack.join("_")`. -/
def joinPath (stack : List String) : String := String.intercalate "_" stack

/-- JavaScript `s.startsWith("/")`. -/
def startsWithSlash (s : String) : Bool :=
  match s.data with
  | c :: _ => c = '/'
  | [] => false

/-- One character step of `processChunk`: branch order and state updates as in
the source; emitted `(field, value)` updates are returned alongside. -/
def processChar (st : ExtractorState) (c : Char) : ExtractorState × List (String × String) :=
  if c = '<' then
    (⟨st.tagStack, "", "", true⟩,
     if st.wordBuffer ≠ "" ∧ st.tagStack ≠ [] then [(joinPath st.tagStack, st.wordBuffer)] else [])
  else if c = '>' ∧ st.insideTag then
    let newStack :=
      if startsWithSlash st.currentTagName then st.tagStack.dropLast
      else if jsTrim st.currentTagName ≠ "" then st.tagStack ++ [jsTrim st.currentTagName]
      else st.tagStack
    (⟨newStack, "", "", false⟩, [])
  else if st.insideTag then
    (⟨st.tagStack, st.currentTagName.push c, st.wordBuffer, true⟩, [])
  else if st.tagStack ≠ [] then
    let field := joinPath st.tagStack
    if c = ' ' ∨ c = '\n' then
      (⟨st.tagStack, st.currentTagName, "", st.insideTag⟩,
       (if st.wordBuffer ≠ "" then [(field, st.wordBuffer)] else []) ++ [(field, String.mk [c])])
    else (⟨st.tagStack, st.currentTagName, st.wordBuffer.push c, st.insideTag⟩, [])
  else (st, [])

/-- Run `processChar` over a character list in order, accumulating the emitted
updates. -/
def processChars (st : ExtractorState) : List Char → ExtractorState × List (String × String)
  | [] => (st, [])
  | c :: rest =>
      let r := processChar st c
      let r2 := processChars r.1 rest
      (r2.1, r.2 ++ r2.2)

/-- The extractor's initial state. -/
def initExtractorState : ExtractorState := ⟨[], "", "", false⟩

/-- Feed a complete response text character by character and apply the
end-of-stream flush of a pending word buffer, returning all emitted
`(field, value)` updates in order. -/
def runExtractor (s : String) : List (String × String) :=
  let r := processChars initExtractorState s.data
  r.2 ++
    (if r.1.wordBuffer ≠ "" ∧ r.1.tagStack ≠ [] then
      [(joinPath r.1.tagStack, r.1.wordBuffer)]
     else [])

/-- Concatenation, in emission order, of the values of all updates emitted for
field path `p`. -/
def updatesFor (p : String) : List (String × String) → String
  | [] => ""
  | ev :: rest => (if ev.1 = p then ev.2 else "") ++ updatesFor p rest

/-- Direct single-field extraction mirroring `generateResponse`'s
`new RegExp("<key>([\\s\\S]*?)</key>")`: the substring between the first
occurrence of `<key>` and the first following `</key>`. -/
def extractField (response : String) (key : String) : Option String :=
  match splitOnFirst ('<' :: key.data ++ ['>']) response.data with
  | none => none
  | some (_, rest) =>
      match splitOnFirst ('<' :: '/' :: key.data ++ ['>']) rest with
      | none => none
      | some (inner, _) => some (String.mk inner)

/-!
Orchestrator (src/types.ts, class `Agent`).  The generation service and MCP
transports are external collaborators; each embedded method takes the raw
response text the service produced (an empty string models a falsy response)
and is otherwise a faithful translation of the method body.
-/

/-- From src/types.ts: an MCP capability provider. -/
structure MCPServer where
  name : String
  description : String
  url : String

/-- From src/types.ts: a discovered MCP capability. -/
structure MCPTool where
  name : String
  description : String

/-- Model of the Zod schema constructs used by this codebase's agents. -/
inductive ZType where
  | zstring : ZType
  | znumber : ZType
  | zboolean : ZType
  | zenum : List String → ZType
  | zoptional : ZType → ZType
  | znullable : ZType → ZType
  | zarray : ZType → ZType
  | zobject : List (String × ZType) → ZType

/-- Accumulating decimal-digit parser for JS index keys. -/
def digitsToNat : List Char → Nat → Option Nat
  | [], acc => some acc
  | c :: rest, acc =>
      if c.isDigit then digitsToNat rest (acc * 10 + (c.toNat - 48)) else none

/-- A property key that is a canonical array index (JS treats exactly the
canonical decimal strings as indices). -/
def canonicalIndex (k : String) : Option Nat :=
  match k.data with
  | [] => none
  | cs =>
      match digitsToNat cs 0 with
      | none => none
      | some i => if Nat.repr i = k then some i else none

/-- JavaScript property read `v[key]` for the value shapes reachable here:
assoc lookup on objects, canonical numeric indexing and `length` on arrays
and strings, `undefined` elsewhere.  (`null`/`undefined` receivers would
throw in JS; they are only ever dereferenced behind `?.` in the source,
which this models.) -/
def jsGet (v : JsVal) (key : String) : JsVal :=
  match v with
  | .obj fs =>
      match fs.find? (fun kv => kv.1 = key) with
      | some kv => kv.2
      | none => .undef
  | .arr xs =>
      if key = "length" then .num (toString xs.length)
      else
        match canonicalIndex key with
        | some i => xs.getD i .undef
        | none => .undef
  | .str s =>
      if key = "length" then .num (toString s.length)
      else
        match canonicalIndex key with
        | some i =>
            match s.data.get? i with
            | some c => .str (String.mk [c])
            | none => .undef
        | none => .undef
  | _ => (.undef)

/-- JavaScript `Object.keys` for the shapes reachable here. -/
def jsKeys (v : JsVal) : List String :=
  match v with
  | .obj fs => fs.map (fun kv => kv.1)
  | .arr xs => (List.range xs.length).map Nat.repr
  | .str s => (List.range s.length).map Nat.repr
  | _ => []

/-- Whether a numeric literal denotes zero (JS `Number(lit)` falsy). -/
def numLiteralIsZero (lit : String) : Bool :=
  lit.data.all (fun c => c = '0' || c = '.')

/-- JavaScript falsiness of a value. -/
def jsFalsy : JsVal → Bool
  | .null => true
  | .undef => true
  | .bool b => !b
  | .str s => s = ""
  | .num lit => numLiteralIsZero lit
  | _ => false

/-- The shared shape of the two selection fallbacks: read a nested selection
list from the decoded response (`parsed.a?.b || []`). -/
def selectionNames (parsed : JsVal) (outerKey innerKey : String) : JsVal :=
  let v := jsGet (jsGet parsed outerKey) innerKey
  if jsFalsy v then .arr [] else v

/-- JavaScript `Array.isArray(names) ? names.includes(name) : names === name`
specialised to a string `name` (strict equality with any non-string is
false). -/
def namesMatch (names : JsVal) (name : String) : Bool :=
  match names with
  | .arr xs => xs.any (fun x => match x with | .str s => s = name | _ => false)
  | .str s => s = name
  | _ => false

/-- From `Agent.selectRelevantServers`, as a function of the configured
servers and the generation service's raw response text (empty string for a
falsy response).  The surrounding `try/catch` can never fire: `xmlToObj`
is total, and the optional-chained reads cannot throw. -/
def selectRelevantServers (servers : List MCPServer) (response : String) : List MCPServer :=
  if servers.isEmpty then []
  else if response = "" then servers
  else
    let parsed := xmlToObj response
    let serverNames := selectionNames parsed "relevant_servers" "server_names"
    servers.filter (fun server => namesMatch serverNames server.name)

/-- From `Agent.selectRelevantTools`, as a function of the discovered tools
and the generation service's raw response text (empty string for a falsy
response). -/
def selectRelevantTools (tools : List MCPTool) (response : String) : List MCPTool :=
  if tools.isEmpty then []
  else if response = "" then tools.take 1
  else
    let parsed := xmlToObj response
    let toolNames := selectionNames parsed "selected_tools" "tool_names"
    tools.filter (fun tool => namesMatch toolNames tool.name)

/-- From `Agent.getSchemaTypeName`: unwrap optional/nullable, then the Zod
type-name tag. -/
def getSchemaTypeName : ZType → String
  | .zoptional t => getSchemaTypeName t
  | .znullable t => getSchemaTypeName t
  | .zstring => "ZodString"
  | .znumber => "ZodNumber"
  | .zboolean => "ZodBoolean"
  | .zenum _ => "ZodEnum"
  | .zarray _ => "ZodArray"
  | .zobject _ => "ZodObject"

/-- JavaScript `typeof value === "object" && value !== null`. -/
def isObjectNonNull : JsVal → Bool
  | .obj _ => true
  | .arr _ => true
  | _ => false

/-- The root-unwrap step of `Agent.generateResponse`: when the decoded value
has exactly one (truthy) key whose value is object-typed, use that value
as the source object. -/
def unwrapRoot (parsed : JsVal) : JsVal :=
  match jsKeys parsed with
  | [rootKey] =>
      if rootKey ≠ "" ∧ typeofObject (jsGet parsed rootKey) then jsGet parsed rootKey else parsed
  | _ => parsed

/-- The decode-and-reconcile tail of `Agent.generateResponse` (src/types.ts
lines 509-542): empty/falsy response gives `{}`; otherwise decode, unwrap a
sole root wrapper, then for each declared output field present in the
source take its decoded value, re-extracting the raw substring from the
original response when a plain-text field decoded as an object. -/
def generateResponseReconcile (shape : List (String × ZType)) (response : String) : JsVal :=
  if response = "" then .obj []
  else
    let parsed := xmlToObj response
    if jsFalsy parsed then .obj []
    else
      let sourceObject := unwrapRoot parsed
      .obj (shape.foldl
        (fun result kv =>
          let value := jsGet sourceObject kv.1
          match value with
          | .undef => result
          | v =>
              let v2 :=
                if getSchemaTypeName kv.2 = "ZodString" ∧ isObjectNonNull v then
                  match extractField response kv.1 with
                  | some s => JsVal.str s
                  | none => v
                else v
              result ++ [(kv.1, v2)])
        [])

mutual
/-- From `Agent.validateNoArrays`: walk the output shape, unwrapping
optional/nullable wrappers, rejecting any array and recursing into nested
objects.  `Except.error` carries the thrown message's fixed prefix. -/
def validateNoArraysField : ZType → Except String Unit
  | .zoptional t => validateNoArraysField t
  | .znullable t => validateNoArraysField t
  | .zarray _ => .error "Arrays are not supported in output schema"
  | .zobject fs => validateNoArraysShape fs
  | _ => .ok ()

/-- The per-shape loop of `Agent.validateNoArrays`. -/
def validateNoArraysShape : List (String × ZType) → Except String Unit
  | [] => .ok ()
  | (_, t) :: rest =>
      match validateNoArraysField t with
      | .error e => .error e
      | .ok () => validateNoArraysShape rest
end

/-- The `Agent` constructor: store the config and validate the output shape;
it throws exactly when `validateNoArrays` does. -/
def agentConstruct (outputFormat : List (String × ZType)) : Except String Unit :=
  validateNoArraysShape outputFormat

mutual
/-- Spec-side predicate (from the spec's words, for claim C4): the shape
contains an array construct at some nesting depth. -/
def hasArrayAnywhere : ZType → Bool
  | .zarray _ => true
  | .zoptional t => hasArrayAnywhere t
  | .znullable t => hasArrayAnywhere t
  | .zobject fs => hasArrayAnywhereShape fs
  | _ => false

/-- Spec-side shape-level companion of `hasArrayAnywhere`. -/
def hasArrayAnywhereShape : List (String × ZType) → Bool
  | [] => false
  | (_, t) :: rest => hasArrayAnywhere t || hasArrayAnywhereShape rest
end

mutual
/-- Minimal model of Zod's `.parse` for one declared field: optional fields
absorb `undefined`, nullable fields absorb `null`, scalar kinds demand the
matching runtime type, enums demand a declared literal, objects recurse. -/
def zodParseField : ZType → JsVal → Except String (Option JsVal)
  | .zoptional _, .undef => .ok none
  | .zoptional t, v => zodParseField t v
  | .znullable _, .null => .ok (some .null)
  | .znullable t, v => zodParseField t v
  | .zstring, .str s => .ok (some (.str s))
  | .zstring, _ => .error "Expected string"
  | .znumber, .num n => .ok (some (.num n))
  | .znumber, _ => .error "Expected number"
  | .zboolean, .bool b => .ok (some (.bool b))
  | .zboolean, _ => .error "Expected boolean"
  | .zenum vs, .str s => if vs.contains s then .ok (some (.str s)) else .error "Invalid enum value"
  | .zenum _, _ => .error "Invalid enum value"
  | .zarray t, .arr xs => (zodParseElems t xs).map (fun ys => some (.arr ys))
  | .zarray _, _ => .error "Expected array"
  | .zobject fs, .obj gs => (zodParseShape fs (.obj gs)).map some
  | .zobject _, _ => .error "Expected object"
termination_by t v => (sizeOf t, 0, 0)

/-- Zod array element traversal. -/
def zodParseElems : ZType → List JsVal → Except String (List JsVal)
  | _, [] => .ok []
  | t, x :: xs =>
      match zodParseField t x with
      | .error e => .error e
      | .ok none => .error "Required"
      | .ok (some y) => (zodParseElems t xs).map (fun ys => y :: ys)
termination_by t xs => (sizeOf t, 1, xs.length)

/-- Zod object parse (strip mode): each declared field is parsed from the
input's property, missing required fields fail with `Required`. -/
def zodParseShape (fs : List (String × ZType)) (v : JsVal) : Except String JsVal :=
  match fs with
  | [] => .ok (.obj [])
  | (k, t) :: rest =>
      match jsGet v k with
      | .undef =>
          match t with
          | .zoptional _ => (zodParseShape rest v).map id
          | _ => .error ("Required field missing: " ++ k)
      | x =>
          match zodParseField t x with
          | .error e => .error e
          | .ok none => (zodParseShape rest v).map id
          | .ok (some y) =>
              match zodParseShape rest v with
              | .error e => .error e
              | .ok (.obj gs) => .ok (.obj ((k, y) :: gs))
              | .ok other => .ok other
termination_by (sizeOf fs, 2, 0)
end

/-- The final stage of `Agent.run` after the response-generation call: build
the reconciled record and validate it against the output shape
(`this.config.outputFormat.parse(response || {})`, which has no
surrounding try/catch). -/
def runFinalStage (shape : List (String × ZType)) (responseText : String) : Except String JsVal :=
  zodParseShape shape (generateResponseReconcile shape responseText)

/-!
Payment-gated fetch (src/src/payments.ts, `fetchWithPayment`).  The network
and the Solana payment are external effects; the function is modelled over
the sequence of HTTP statuses the successive fetch attempts return.  The
result carries (status, number of fetch attempts, number of payments made).
-/

/-- Fetch-API `res.ok`: status in the 2xx range. -/
def isOkStatus (status : Nat) : Bool := 200 ≤ status && status ≤ 299

/-- The source's `maxRetries`. -/
def maxPaymentRetries : Nat := 1

/-- The `while (true)` loop of `fetchWithPayment`: `responses n` is the status
of the `n`-th fetch attempt; `hasWallet` reflects `solanaWallet` being
configured.  Returns the final 2xx status with the attempt and payment
counts, or the thrown error message. -/
def fetchWithPaymentLoop (hasWallet : Bool) (responses : Nat → Nat) (retries : Nat) :
    Except String (Nat × Nat × Nat) :=
  let status := responses retries
  if isOkStatus status then .ok (status, retries + 1, retries)
  else if h : status ≠ 402 ∨ retries ≥ maxPaymentRetries ∨ ¬hasWallet then
    .error ("Request failed: " ++ toString status)
  else
    fetchWithPaymentLoop hasWallet responses (retries + 1)
termination_by maxPaymentRetries + 1 - retries
decreasing_by
  simp only [not_or, not_le] at h
  omega

/-- From `fetchWithPayment`: start the retry loop at zero retries. -/
def fetchWithPayment (hasWallet : Bool) (responses : Nat → Nat) :
    Except String (Nat × Nat × Nat) :=
  fetchWithPaymentLoop hasWallet responses 0

/-!
Characterisation of the encoder's image for the round-trip analysis of
claim C1.  `tagsIn v` lists the tag names the encoder emits strictly inside
the encoding of `v`; `goodVal` states the conditions under which decoding
inverts encoding (derived from the decoder's trimming, scalar coercion, lazy
close-tag matching and `item` unwrapping).
-/

mutual
/-- The tag names the encoder emits for the entries/elements inside `v`. -/
def tagsIn : JsVal → List String
  | .obj fs => tagsInEntries fs
  | .arr xs => "item" :: tagsInElems xs
  | _ => []

/-- Entry-list companion of `tagsIn`. -/
def tagsInEntries : List (String × JsVal) → List String
  | [] => []
  | (k, v) :: rest => k :: (tagsIn v ++ tagsInEntries rest)

/-- Element-list companion of `tagsIn`. -/
def tagsInElems : List JsVal → List String
  | [] => []
  | x :: rest => tagsIn x ++ tagsInElems rest
end

/-- A mapping key safe for the round trip: nonempty, made of `[a-zA-Z0-9_]`
with a letter first (so sanitization is the identity), and not the
reserved element tag `item`. -/
def goodKey (k : String) : Bool :=
  match k.data with
  | [] => false
  | c :: rest => c.isAlpha && rest.all tagSafeChar && !(k = "item")

/-- A string scalar safe for the round trip: trim-invariant, free of angle
brackets, and not coerced by the decoder (no boolean or numeric literal). -/
def goodScalarString (s : String) : Bool :=
  trimChars s.data = s.data && !s.data.contains '<' && !s.data.contains '>' &&
    !(s = "true") && !(s = "false") && !numericLiteral s.data

mutual
/-- No array occurs anywhere inside the value. -/
def arrFree : JsVal → Bool
  | .arr _ => false
  | .obj fs => arrFreeEntries fs
  | _ => true

/-- Entry-list companion of `arrFree`. -/
def arrFreeEntries : List (String × JsVal) → Bool
  | [] => true
  | (_, v) :: rest => arrFree v && arrFreeEntries rest
end

/-- Pairwise distinctness of a mapping's keys. -/
def keysDistinct : List (String × JsVal) → Bool
  | [] => true
  | (k, _) :: rest => !(rest.map (fun kv => kv.1)).contains k && keysDistinct rest

mutual
/-- The round-trip-safe values of claim C1 (see `goodRoot`): no null/undefined
anywhere; booleans are free; numbers print as unsigned integer/decimal
literals; strings satisfy `goodScalarString`; sequences are nonempty with
sequence-free elements; mappings are nonempty with distinct good keys,
none of which reoccurs as a tag inside its own value's encoding. -/
def goodVal : JsVal → Bool
  | .null => false
  | .undef => false
  | .bool _ => true
  | .num lit => numericLiteral lit.data
  | .str s => goodScalarString s
  | .arr xs => !xs.isEmpty && goodElems xs
  | .obj fs => !fs.isEmpty && goodEntries fs && keysDistinct fs

/-- Sequence elements: no nested sequence at any depth, and recursively good. -/
def goodElems : List JsVal → Bool
  | [] => true
  | x :: rest => arrFree x && goodVal x && goodElems rest

/-- Mapping entries: good key, key not reused as a tag inside the value's own
encoding, and recursively good value. -/
def goodEntries : List (String × JsVal) → Bool
  | [] => true
  | (k, v) :: rest => goodKey k && !(tagsIn v).contains k && goodVal v && goodEntries rest
end

/-- Root values for the amended round-trip claim: a good mapping. -/
def goodRoot : JsVal → Bool
  | .obj fs => goodVal (.obj fs)
  | _ => false

mutual
/-- Structural nesting height of a value (the decoder recursion depth its
encoding demands). -/
def jsHeight : JsVal → Nat
  | .obj fs => jsHeightEntries fs + 1
  | .arr xs => jsHeightElems xs + 1
  | _ => 0

/-- Entry-list companion of `jsHeight`. -/
def jsHeightEntries : List (String × JsVal) → Nat
  | [] => 0
  | (_, v) :: rest => max (jsHeight v) (jsHeightEntries rest)

/-- Element-list companion of `jsHeight`. -/
def jsHeightElems : List JsVal → Nat
  | [] => 0
  | x :: rest => max (jsHeight x) (jsHeightElems rest)
end

/-!
Token view of tag-delimited text, used to reason about substring occurrences
inside encoder output: text characters (never `<`), open tags and close tags.
-/

/-- One lexical token of tag-delimited text. -/
inductive XmlTok where
  | topen : List Char → XmlTok
  | tclose : List Char → XmlTok
  | tch : Char → XmlTok

/-- Flatten a token list back to characters. -/
def flatToks : List XmlTok → List Char
  | [] => []
  | .topen t :: rest => '<' :: (t ++ '>' :: flatToks rest)
  | .tclose t :: rest => '<' :: '/' :: (t ++ '>' :: flatToks rest)
  | .tch c :: rest => c :: flatToks rest

/-- Well-formed token: tags are nonempty name-safe runs, text is not `<`. -/
def goodTok : XmlTok → Bool
  | .topen t => !t.isEmpty && t.all tagSafeChar
  | .tclose t => !t.isEmpty && t.all tagSafeChar
  | .tch c => !(c = '<')

mutual
/-- Well-formed forest of tag blocks: each block is an open tag, a body, the
matching close tag, then the following blocks. -/
inductive TagForest where
  | nil : TagForest
  | node : List Char → TagBody → TagForest → TagForest

/-- Block body: raw text (no `<`) or a nested forest. -/
inductive TagBody where
  | btext : List Char → TagBody
  | bforest : TagForest → TagBody
end

mutual
/-- Tokens of a forest. -/
def forestToks : TagForest → List XmlTok
  | .nil => []
  | .node t inner rest => .topen t :: (bodyToks inner ++ .tclose t :: forestToks rest)

/-- Tokens of a body. -/
def bodyToks : TagBody → List XmlTok
  | .btext s => s.map XmlTok.tch
  | .bforest f => forestToks f
end

mutual
/-- The block tags occurring in a forest (at any depth). -/
def forestTags : TagForest → List (List Char)
  | .nil => []
  | .node t inner rest => t :: (bodyTags inner ++ forestTags rest)

/-- The block tags occurring in a body. -/
def bodyTags : TagBody → List (List Char)
  | .btext _ => []
  | .bforest f => forestTags f
end

mutual
/-- Well-formedness of a forest: name-safe nonempty tags, no tag equal to a
block tag of its own body, text bodies free of `<`. -/
def wfForest : TagForest → Bool
  | .nil => true
  | .node t inner rest =>
      !t.isEmpty && t.all tagSafeChar && !(bodyTags inner).contains t &&
        wfBody inner && wfForest rest

/-- Body companion of `wfForest`. -/
def wfBody : TagBody → Bool
  | .btext s => !s.contains '<'
  | .bforest f => wfForest f
end

/-- The (tag, flattened body) pairs of a forest's top-level blocks. -/
def forestBlocks : TagForest → List (List Char × List Char)
  | .nil => []
  | .node t inner rest => (t, flatToks (bodyToks inner)) :: forestBlocks rest

/-- Concatenation of two forests. -/
def forestAppend : TagForest → TagForest → TagForest
  | .nil, g => g
  | .node t b r, g => .node t b (forestAppend r g)

mutual
/-- The forest structure of `objToXmlChars v parentKey` (tags already
sanitized, matching the encoder's emission). -/
def valForest : JsVal → Option String → TagForest
  | .arr xs, parentKey =>
      .node (sanitizeTagName (parentKey.getD "array")).data (.bforest (itemsForest xs)) .nil
  | .obj fs, parentKey =>
      if allEntriesDropped fs then
        .node (sanitizeTagName (parentKey.getD "empty")).data (.btext []) .nil
      else
        match parentKey with
        | some k => .node (sanitizeTagName k).data (.bforest (entriesForest fs)) .nil
        | none => entriesForest fs
  | v, parentKey =>
      .node (sanitizeTagName (parentKey.getD "value")).data (.btext (jsString v).data) .nil

/-- Forest of an array's `item` blocks. -/
def itemsForest : List JsVal → TagForest
  | [] => .nil
  | x :: rest =>
      .node (sanitizeTagName "item").data
        (if typeofObject x then .bforest (valForest x none) else .btext (jsString x).data)
        (itemsForest rest)

/-- Forest of an object's entry blocks (null/undefined entries skipped). -/
def entriesForest : List (String × JsVal) → TagForest
  | [] => .nil
  | (key, value) :: rest =>
      if isNullOrUndef value then entriesForest rest
      else if typeofObject value then
        forestAppend (valForest value (some key)) (entriesForest rest)
      else .node key.data (.btext (jsString value).data) (entriesForest rest)
end

/-!
Document model for the streaming-extractor analysis of claim C3: a response
text as a forest of elements and text runs, with the per-path reference
texts the claim compares against.
-/

/-- A node of a well-formed streamed document. -/
inductive SNode where
  | stext : String → SNode
  | selem : String → List SNode → SNode

/-- Render a document back to its character stream. -/
def renderNodes : List SNode → List Char
  | [] => []
  | .stext s :: rest => s.data ++ renderNodes rest
  | .selem t children :: rest =>
      '<' :: (t.data ++ '>' :: (renderNodes children ++ '<' :: '/' :: (t.data ++ '>' :: renderNodes rest)))

/-- String-valued rendering of a document. -/
def renderDoc (doc : List SNode) : String := String.mk (renderNodes doc)

/-- Well-formed document: element tags are nonempty name-safe runs and text
contains no `<`. -/
def wfNodes : List SNode → Bool
  | [] => true
  | .stext s :: rest => !s.data.contains '<' && wfNodes rest
  | .selem t children :: rest =>
      !t.data.isEmpty && t.data.all tagSafeChar && wfNodes children && wfNodes rest

/-- The concatenation of the raw text characters appearing directly at stack
path `p` anywhere in the document (document order). -/
def refTextAt (p : String) : List String → List SNode → String
  | _, [] => ""
  | stack, .stext s :: rest =>
      (if stack ≠ [] ∧ joinPath stack = p then s else "") ++ refTextAt p stack rest
  | stack, .selem t children :: rest =>
      refTextAt p (stack ++ [t]) children ++ refTextAt p stack rest

/-- All children are text runs (a leaf element). -/
def allText : List SNode → Bool
  | [] => true
  | .stext _ :: rest => allText rest
  | .selem _ _ :: _ => false

/-- The inner text of a leaf element: concatenation of its text children. -/
def directText : List SNode → String
  | [] => ""
  | .stext s :: rest => s ++ directText rest
  | .selem _ _ :: rest => directText rest

/-- Every element instance whose joined path equals `p` is a leaf. -/
def leafOnlyAt (p : String) : List String → List SNode → Bool
  | _, [] => true
  | stack, .stext _ :: rest => leafOnlyAt p stack rest
  | stack, .selem t children :: rest =>
      (if joinPath (stack ++ [t]) = p then allText children else true) &&
        leafOnlyAt p (stack ++ [t]) children && leafOnlyAt p stack rest

/-- Concatenation of the inner texts of all leaf elements at path `p`, in
document order — the claim's reference value for a leaf field path. -/
def leafTextAt (p : String) : List String → List SNode → String
  | _, [] => ""
  | stack, .stext _ :: rest => leafTextAt p stack rest
  | stack, .selem t children :: rest =>
      (if joinPath (stack ++ [t]) = p then directText children else "") ++
        (leafTextAt p (stack ++ [t]) children ++ leafTextAt p stack rest)

/-- The per-field contribution of `generateResponseReconcile`'s loop: nothing
when the field is absent from the source, otherwise the single reconciled
binding (with the raw re-extraction override for plain-text fields that
decoded as objects). -/
def reconcileField (src : JsVal) (response : String) (kv : String × ZType) :
    List (String × JsVal) :=
  match jsGet src kv.1 with
  | .undef => []
  | v =>
      let v2 :=
        if getSchemaTypeName kv.2 = "ZodString" ∧ isObjectNonNull v then
          match extractField response kv.1 with
          | some s => JsVal.str s
          | none => v
        else v
      [(kv.1, v2)]

/-- The pending word buffer's contribution to path `p`: the buffer's content
when the extractor sits at stack `stack` with joined path `p`, else
nothing.  Used to state the streaming invariant. -/
def pendStr (p : String) (stack : List String) (w : String) : String :=
  if stack ≠ [] ∧ joinPath stack = p then w else ""

/-- The body of the block that `entriesForest`/`itemsForest` emit for a value:
a nested forest for mappings and sequences, the stringified scalar text
otherwise.  Analysis companion of `valForest`. -/
def entryBody (v : JsVal) : TagBody :=
  match v with
  | .obj fs => .bforest (entriesForest fs)
  | .arr xs => .bforest (itemsForest xs)
  | v => .btext (jsString v).data

/-!
Theorems.  Helper lemmas come first, then one named theorem per claim (with
witness or counterexample theorems where the claim's status requires them).
-/

theorem foldl_append_flatMap {α β : Type} (g : α → List β) :
    ∀ (l : List α) (acc : List β),
      l.foldl (fun r x => r ++ g x) acc = acc ++ l.flatMap g := by
  intro l
  induction l with
  | nil => intro acc; simp
  | cons x xs ih => intro acc; simp [ih, List.append_assoc]

mutual
theorem validateNoArraysField_ok_iff (t : ZType) :
    (validateNoArraysField t = .ok ()) ↔ hasArrayAnywhere t = false := by
  cases t with
  | zoptional t => simpa [validateNoArraysField, hasArrayAnywhere] using validateNoArraysField_ok_iff t
  | znullable t => simpa [validateNoArraysField, hasArrayAnywhere] using validateNoArraysField_ok_iff t
  | zarray t => simp [validateNoArraysField, hasArrayAnywhere]
  | zobject fs => simpa [validateNoArraysField, hasArrayAnywhere] using validateNoArraysShape_ok_iff fs
  | zstring => simp [validateNoArraysField, hasArrayAnywhere]
  | znumber => simp [validateNoArraysField, hasArrayAnywhere]
  | zboolean => simp [validateNoArraysField, hasArrayAnywhere]
  | zenum vs => simp [validateNoArraysField, hasArrayAnywhere]

theorem validateNoArraysShape_ok_iff (fs : List (String × ZType)) :
    (validateNoArraysShape fs = .ok ()) ↔ hasArrayAnywhereShape fs = false := by
  match fs with
  | [] => simp [validateNoArraysShape, hasArrayAnywhereShape]
  | (k, t) :: rest =>
      have h1 := validateNoArraysField_ok_iff t
      have h2 := validateNoArraysShape_ok_iff rest
      cases hv : validateNoArraysField t with
      | error e =>
          simp only [validateNoArraysShape, hasArrayAnywhereShape, hv]
          rw [hv] at h1
          simp only [Bool.or_eq_false_iff]
          constructor
          · intro h; exact absurd h (by simp)
          · rintro ⟨ha, _⟩; exact absurd (h1.2 ha) (by simp)
      | ok u =>
          cases u
          simp only [validateNoArraysShape, hasArrayAnywhereShape, hv]
          rw [hv] at h1
          simp [Bool.or_eq_false_iff, h1.1 rfl, h2]
end

theorem fetchWithPaymentLoop_ok_step (w : Bool) (f : Nat → Nat) (r : Nat)
    (h : isOkStatus (f r) = true) :
    fetchWithPaymentLoop w f r = .ok (f r, r + 1, r) := by
  unfold fetchWithPaymentLoop
  simp [h]

theorem fetchWithPaymentLoop_error_step (w : Bool) (f : Nat → Nat) (r : Nat)
    (h : isOkStatus (f r) = false)
    (hc : f r ≠ 402 ∨ r ≥ maxPaymentRetries ∨ ¬ w = true) :
    fetchWithPaymentLoop w f r = .error ("Request failed: " ++ toString (f r)) := by
  rw [fetchWithPaymentLoop.eq_def]
  simp only [h, Bool.false_eq_true, if_false]
  exact dif_pos hc

theorem fetchWithPaymentLoop_retry_step (w : Bool) (f : Nat → Nat) (r : Nat)
    (h : isOkStatus (f r) = false)
    (hc : ¬ (f r ≠ 402 ∨ r ≥ maxPaymentRetries ∨ ¬ w = true)) :
    fetchWithPaymentLoop w f r = fetchWithPaymentLoop w f (r + 1) := by
  conv_lhs => rw [fetchWithPaymentLoop.eq_def]
  simp only [h, Bool.false_eq_true, if_false]
  exact dif_neg hc

/-- C10: fetchWithPayment makes at most two underlying HTTP attempts: it
returns the first ok response; on a 402 with a configured wallet it performs
exactly one payment and one retry; on any other non-ok status, on a 402
without a wallet, or on a second consecutive non-ok response it throws; it
never retries more than once and never returns a non-ok response. -/
theorem fetchWithPayment_attempt_policy (hasWallet : Bool) (responses : Nat → Nat) :
    (isOkStatus (responses 0) = true →
        fetchWithPayment hasWallet responses = .ok (responses 0, 1, 0)) ∧
    (isOkStatus (responses 0) = false → (responses 0 ≠ 402 ∨ hasWallet = false) →
        fetchWithPayment hasWallet responses
          = .error ("Request failed: " ++ toString (responses 0))) ∧
    (isOkStatus (responses 0) = false → responses 0 = 402 → hasWallet = true →
        isOkStatus (responses 1) = true →
        fetchWithPayment hasWallet responses = .ok (responses 1, 2, 1)) ∧
    (isOkStatus (responses 0) = false → responses 0 = 402 → hasWallet = true →
        isOkStatus (responses 1) = false →
        fetchWithPayment hasWallet responses
          = .error ("Request failed: " ++ toString (responses 1))) ∧
    (∀ s n p, fetchWithPayment hasWallet responses = .ok (s, n, p) →
        isOkStatus s = true ∧ n ≤ 2 ∧ p ≤ 1) := by
  have hok : ∀ h : isOkStatus (responses 0) = true,
      fetchWithPayment hasWallet responses = .ok (responses 0, 1, 0) := fun h =>
    fetchWithPaymentLoop_ok_step hasWallet responses 0 h
  have herr0 : ∀ (h : isOkStatus (responses 0) = false)
      (hc : responses 0 ≠ 402 ∨ hasWallet = false),
      fetchWithPayment hasWallet responses
        = .error ("Request failed: " ++ toString (responses 0)) := by
    intro h hc
    refine fetchWithPaymentLoop_error_step hasWallet responses 0 h ?_
    rcases hc with hc | hc
    · exact Or.inl hc
    · exact Or.inr (Or.inr (by simp [hc]))
  have hretry : ∀ (h : isOkStatus (responses 0) = false) (h402 : responses 0 = 402)
      (hw : hasWallet = true),
      fetchWithPayment hasWallet responses = fetchWithPaymentLoop hasWallet responses 1 := by
    intro h h402 hw
    refine fetchWithPaymentLoop_retry_step hasWallet responses 0 h ?_
    simp [h402, maxPaymentRetries, hw]
  refine ⟨hok, herr0, ?_, ?_, ?_⟩
  · intro h h402 hw h1
    rw [hretry h h402 hw]
    exact fetchWithPaymentLoop_ok_step hasWallet responses 1 h1
  · intro h h402 hw h1
    rw [hretry h h402 hw]
    exact fetchWithPaymentLoop_error_step hasWallet responses 1 h1
      (Or.inr (Or.inl (by simp [maxPaymentRetries])))
  · intro s n p hres
    by_cases h : isOkStatus (responses 0) = true
    · rw [hok h] at hres
      cases hres
      exact ⟨h, by omega, by omega⟩
    · have h0 : isOkStatus (responses 0) = false := by
        cases hval : isOkStatus (responses 0)
        · rfl
        · exact absurd hval h
      by_cases h402 : responses 0 = 402
      · by_cases hw : hasWallet = true
        · by_cases h1 : isOkStatus (responses 1) = true
          · rw [hretry h0 h402 hw, fetchWithPaymentLoop_ok_step hasWallet responses 1 h1] at hres
            cases hres
            exact ⟨h1, by omega, by omega⟩
          · have h1f : isOkStatus (responses 1) = false := by
              cases hval : isOkStatus (responses 1)
              · rfl
              · exact absurd hval h1
            rw [hretry h0 h402 hw,
              fetchWithPaymentLoop_error_step hasWallet responses 1 h1f
                (Or.inr (Or.inl (by simp [maxPaymentRetries])))] at hres
            exact absurd hres (by simp)
        · have hwf : hasWallet = false := by
            cases hasWallet
            · rfl
            · exact absurd rfl hw
          rw [herr0 h0 (Or.inr hwf)] at hres
          exact absurd hres (by simp)
      · rw [herr0 h0 (Or.inl h402)] at hres
        exact absurd hres (by simp)

/-- Witness for C10: a 402 followed by a 200 with a configured wallet returns
the second response after exactly two attempts and one payment. -/
theorem fetchWithPayment_attempt_policy_witness :
    fetchWithPayment true (fun n => if n = 0 then 402 else 200) = .ok (200, 2, 1) := by
  have h := (fetchWithPayment_attempt_policy true (fun n => if n = 0 then 402 else 200)).2.2.1
    (by decide) (by decide) rfl (by decide)
  simpa using h

/-- Counterexample for C2: decoding the encoding of the root-level sequence
`[1,2,3]` does not return the bare sequence. -/
theorem decode_encode_root_array_not_bare :
    xmlToObj (objToXml (JsVal.arr [JsVal.num "1", JsVal.num "2", JsVal.num "3"]) none)
      ≠ JsVal.arr [JsVal.num "1", JsVal.num "2", JsVal.num "3"] := by
  intro h
  have h2 : JsVal.obj [("array", JsVal.arr [JsVal.num "1", JsVal.num "2", JsVal.num "3"])]
      = JsVal.arr [JsVal.num "1", JsVal.num "2", JsVal.num "3"] := h
  exact absurd h2 (by simp)

/-- C2 (amended): `Decode(Encode([1,2,3]))` returns the mapping
`{array: [1,2,3]}` — the encoder wraps a root-level sequence in an `array`
tag and the decoder's `item` unwrap applies only to the inner item blocks,
so the sequence reappears under the `array` key rather than bare. -/
theorem decode_encode_root_array_wrapped :
    xmlToObj (objToXml (JsVal.arr [JsVal.num "1", JsVal.num "2", JsVal.num "3"]) none)
      = JsVal.obj [("array", JsVal.arr [JsVal.num "1", JsVal.num "2", JsVal.num "3"])] := rfl

/-- Counterexample for C1: the scalar value `"hi"` (no angle brackets, not a
boolean or numeric literal) is a value the claim admits, yet decoding its
encoding yields a mapping with key `value`, not the scalar back. -/
theorem decode_encode_not_identity_on_root_scalar :
    xmlToObj (objToXml (JsVal.str "hi") none) = JsVal.obj [("value", JsVal.str "hi")] ∧
    JsVal.obj [("value", JsVal.str "hi")] ≠ JsVal.str "hi" := by
  refine ⟨rfl, ?_⟩
  intro h
  exact absurd h (by simp)

/-- C4: constructing an Agent (Orchestrator) succeeds exactly when its declared
output shape contains no array at any nesting depth (including inside
nested records and under optional/nullable wrappers); an array anywhere
makes the constructor throw, before any run starts. -/
theorem agentConstruct_ok_iff_no_arrays (outputFormat : List (String × ZType)) :
    (agentConstruct outputFormat = .ok ()) ↔ hasArrayAnywhereShape outputFormat = false := by
  simpa [agentConstruct] using validateNoArraysShape_ok_iff outputFormat

/-- Counterexample for C5: one configured provider and a non-empty selection
response that fails to decode into a `server_names` selection: the
Orchestrator proceeds with no providers at all, not with all of them. -/
theorem selectRelevantServers_not_fail_open :
    selectRelevantServers [⟨"alpha", "d", "u"⟩] "not xml" = [] ∧
    ([] : List MCPServer) ≠ [⟨"alpha", "d", "u"⟩] := by
  refine ⟨rfl, ?_⟩
  intro h
  exact absurd h (by simp)

/-- C5 (amended): when the provider-selection response is empty (falsy) the
Orchestrator proceeds with all configured providers; when the response is
non-empty but its decoded `relevant_servers.server_names` selection is
unset or empty, it proceeds with no providers (the decode-failure catch is
unreachable because decoding never throws). -/
theorem selectRelevantServers_fallback_policy (servers : List MCPServer) (response : String) :
    (response = "" → selectRelevantServers servers response = servers) ∧
    (response ≠ "" →
      selectionNames (xmlToObj response) "relevant_servers" "server_names" = .arr [] →
      selectRelevantServers servers response = []) := by
  constructor
  · intro h
    subst h
    by_cases hs : servers.isEmpty
    · simp [selectRelevantServers, hs, (List.isEmpty_iff.mp hs).symm]
    · simp [selectRelevantServers, hs]
  · intro hne hsel
    by_cases hs : servers.isEmpty
    · simp [selectRelevantServers, hs]
    · simp [selectRelevantServers, hs, hne, hsel, namesMatch]

/-- Witness for C5 (amended): with one configured provider, an empty response
selects that provider, while non-empty free text (whose decode leaves the
selection unset) selects none. -/
theorem selectRelevantServers_fallback_policy_witness :
    selectRelevantServers [⟨"alpha", "d", "u"⟩] "" = [⟨"alpha", "d", "u"⟩] ∧
    selectRelevantServers [⟨"alpha", "d", "u"⟩] "free text" = [] :=
  ⟨(selectRelevantServers_fallback_policy [⟨"alpha", "d", "u"⟩] "").1 rfl,
   (selectRelevantServers_fallback_policy [⟨"alpha", "d", "u"⟩] "free text").2
     (by simp) rfl⟩

/-- Counterexample for C6: two discovered capabilities and a non-empty
selection response that fails to decode into a `tool_names` selection: the
Orchestrator selects no capability, not the first one. -/
theorem selectRelevantTools_not_first_tool :
    selectRelevantTools [⟨"t1", "d"⟩, ⟨"t2", "d"⟩] "junk" = [] ∧
    ([] : List MCPTool) ≠ [⟨"t1", "d"⟩] := by
  refine ⟨rfl, ?_⟩
  intro h
  exact absurd h (by simp)

/-- C6 (amended): when the tool-selection response is empty (falsy) the
Orchestrator falls back to exactly the first discovered capability; when
the response is non-empty but its decoded `selected_tools.tool_names`
selection is unset or empty, it selects no capability (the decode-failure
catch is unreachable because decoding never throws). -/
theorem selectRelevantTools_fallback_policy (tools : List MCPTool) (response : String) :
    (response = "" → selectRelevantTools tools response = tools.take 1) ∧
    (response ≠ "" →
      selectionNames (xmlToObj response) "selected_tools" "tool_names" = .arr [] →
      selectRelevantTools tools response = []) := by
  constructor
  · intro h
    subst h
    by_cases hs : tools.isEmpty
    · simp [selectRelevantTools, hs, List.isEmpty_iff.mp hs]
    · simp [selectRelevantTools, hs]
  · intro hne hsel
    by_cases hs : tools.isEmpty
    · simp [selectRelevantTools, hs]
    · simp [selectRelevantTools, hs, hne, hsel, namesMatch]

/-- Witness for C6 (amended): with two discovered capabilities, an empty
response selects the first, while non-empty free text selects none. -/
theorem selectRelevantTools_fallback_policy_witness :
    selectRelevantTools [⟨"t1", "d"⟩, ⟨"t2", "d"⟩] "" = [⟨"t1", "d"⟩] ∧
    selectRelevantTools [⟨"t1", "d"⟩, ⟨"t2", "d"⟩] "plain" = [] :=
  ⟨(selectRelevantTools_fallback_policy [⟨"t1", "d"⟩, ⟨"t2", "d"⟩] "").1 rfl,
   (selectRelevantTools_fallback_policy [⟨"t1", "d"⟩, ⟨"t2", "d"⟩] "plain").2
     (by simp) rfl⟩

/-- C8: decoding is total (it is a function in this model, and its JS original
can be seen to throw nowhere); when the trimmed input contains no `<`, the
result is the bare trimmed string (empty string for blank input), and when
no tag pair matches at all, the raw trimmed text is likewise returned — in
the worst case the result is a string. -/
theorem xmlToObj_total_fallback (s : String) :
    ((trimChars s.data).contains '<' = false →
        xmlToObj s = .str (String.mk (trimChars s.data))) ∧
    (scanTags (trimChars s.data) = [] →
        xmlToObj s = .str (String.mk (trimChars s.data))) := by
  constructor
  · intro h
    have h2 : '<' ∉ trimChars s.data := by simpa using h
    rw [xmlToObj, parseElement]
    simp [h2]
  · intro h
    rw [xmlToObj, parseElement]
    by_cases hc : '<' ∈ trimChars s.data
    · simp [hc, h]
    · simp [hc]

/-- Witness for C8: free text with no matching tag pair decodes to the bare
trimmed string in both hypothesis cases. -/
theorem xmlToObj_total_fallback_witness :
    xmlToObj "  plain words  " = JsVal.str "plain words" ∧
    xmlToObj "a < b" = JsVal.str "a < b" :=
  ⟨(xmlToObj_total_fallback "  plain words  ").1 rfl,
   (xmlToObj_total_fallback "a < b").2 rfl⟩

/-- C9 (code bug): with a declared output shape requiring a plain-text field
`output`, an empty (falsy) generation response makes the final
schema-validation step throw a required-field error instead of returning
the empty record: `generateResponse` returns `{}` but
`outputFormat.parse({})` has no surrounding try/catch and rejects it. -/
theorem runFinalStage_empty_response_throws :
    generateResponseReconcile [("output", ZType.zstring)] "" = JsVal.obj [] ∧
    runFinalStage [("output", ZType.zstring)] ""
      = .error "Required field missing: output" := by
  constructor
  · rfl
  · simp [runFinalStage, generateResponseReconcile, zodParseShape, jsGet]

theorem unwrapRoot_single_obj (k : String) (m : List (String × JsVal)) (hk : k ≠ "") :
    unwrapRoot (.obj [(k, .obj m)]) = .obj m := by
  simp [unwrapRoot, jsKeys, jsGet, hk, typeofObject]

theorem reconcile_eq_flatMap (shape : List (String × ZType)) (response : String)
    (hne : response ≠ "") (hfal : jsFalsy (xmlToObj response) = false) :
    generateResponseReconcile shape response
      = .obj (shape.flatMap
          (reconcileField (unwrapRoot (xmlToObj response)) response)) := by
  unfold generateResponseReconcile
  simp only [hne, if_false, hfal, if_neg, Bool.false_eq_true, not_false_eq_true]
  congr 1
  have hstep :
      (fun (result : List (String × JsVal)) (kv : String × ZType) =>
        match jsGet (unwrapRoot (xmlToObj response)) kv.1 with
        | .undef => result
        | v =>
            let v2 :=
              if getSchemaTypeName kv.2 = "ZodString" ∧ isObjectNonNull v then
                match extractField response kv.1 with
                | some s => JsVal.str s
                | none => v
              else v
            result ++ [(kv.1, v2)])
      = fun result kv => result ++ reconcileField (unwrapRoot (xmlToObj response)) response kv := by
    funext result kv
    cases h : jsGet (unwrapRoot (xmlToObj response)) kv.1 <;>
      simp [reconcileField, h]
  rw [hstep, foldl_append_flatMap]
  simp

theorem flatMap_reconcileField_find_absent (shape : List (String × ZType)) (src : JsVal)
    (response : String) (k : String)
    (hk : k ∉ shape.map (fun kv => kv.1)) :
    (shape.flatMap (reconcileField src response)).find? (fun kv => kv.1 = k) = none := by
  induction shape with
  | nil => simp
  | cons kv rest ih =>
      simp only [List.map_cons, List.mem_cons, not_or] at hk
      obtain ⟨hk1, hk2⟩ := hk
      simp only [List.flatMap_cons, List.find?_append, ih hk2, Option.orElse_none]
      cases h : jsGet src kv.1 <;>
        simp [reconcileField, h, ih hk2, hk1, Ne.symm hk1]

theorem flatMap_reconcileField_find_mem (shape : List (String × ZType)) (src : JsVal)
    (response : String) (k : String) (T : ZType)
    (hmem : (k, T) ∈ shape) (hnd : (shape.map (fun kv => kv.1)).Nodup) :
    (shape.flatMap (reconcileField src response)).find? (fun kv => kv.1 = k)
      = (reconcileField src response (k, T)).head? := by
  induction shape with
  | nil => exact absurd hmem (by simp)
  | cons kv rest ih =>
      simp only [List.map_cons, List.nodup_cons] at hnd
      obtain ⟨hnd1, hnd2⟩ := hnd
      rcases List.mem_cons.mp hmem with heq | hmem2
      · subst heq
        have habs : (rest.flatMap (reconcileField src response)).find?
            (fun kv => kv.1 = k) = none :=
          flatMap_reconcileField_find_absent rest src response k hnd1
        simp only [List.flatMap_cons, List.find?_append]
        cases h : jsGet src k with
        | undef => simp [reconcileField, h, habs]
        | null => simp [reconcileField, h]
        | str s => simp [reconcileField, h]
        | num n => simp [reconcileField, h]
        | bool b => simp [reconcileField, h]
        | arr xs => simp [reconcileField, h]
        | obj fs => simp [reconcileField, h]
      · have hne : kv.1 ≠ k := by
          intro hcontra
          exact hnd1 (hcontra ▸ (List.mem_map.mpr ⟨(k, T), hmem2, rfl⟩))
        simp only [List.flatMap_cons, List.find?_append, ih hmem2 hnd2]
        cases h : jsGet src kv.1 <;>
          simp [reconcileField, h, hne, ih hmem2 hnd2]

/-- C7: in the decode-and-reconcile step, (a) a single-key decoded mapping
whose sole value is itself a mapping has that root level unwrapped first;
(b) a declared plain-text field present in the unwrapped source whose
decoded value is a mapping is replaced by the raw substring between its
open and close tags in the original response text; (c) declared fields
absent from the source are omitted from the result rather than erroring. -/
theorem generateResponse_reconcile_spec (shape : List (String × ZType)) (response : String)
    (hne : response ≠ "") (hfal : jsFalsy (xmlToObj response) = false)
    (hnd : (shape.map (fun kv => kv.1)).Nodup) :
    (∀ (k : String) (m : List (String × JsVal)),
        xmlToObj response = .obj [(k, .obj m)] → k ≠ "" →
        unwrapRoot (xmlToObj response) = .obj m) ∧
    (∀ (k : String) (T : ZType) (s : String), (k, T) ∈ shape →
        getSchemaTypeName T = "ZodString" →
        isObjectNonNull (jsGet (unwrapRoot (xmlToObj response)) k) = true →
        extractField response k = some s →
        jsGet (generateResponseReconcile shape response) k = .str s) ∧
    (∀ (k : String) (T : ZType), (k, T) ∈ shape →
        jsGet (unwrapRoot (xmlToObj response)) k = .undef →
        jsGet (generateResponseReconcile shape response) k = .undef) := by
  refine ⟨?_, ?_, ?_⟩
  · intro k m hparsed hk
    rw [hparsed]
    exact unwrapRoot_single_obj k m hk
  · intro k T s hmem hT hobj hex
    rw [reconcile_eq_flatMap shape response hne hfal]
    have hfind := flatMap_reconcileField_find_mem shape
      (unwrapRoot (xmlToObj response)) response k T hmem hnd
    cases h : jsGet (unwrapRoot (xmlToObj response)) k with
    | undef => rw [h] at hobj; exact absurd hobj (by simp [isObjectNonNull])
    | null => rw [h] at hobj; exact absurd hobj (by simp [isObjectNonNull])
    | str s2 => rw [h] at hobj; exact absurd hobj (by simp [isObjectNonNull])
    | num n => rw [h] at hobj; exact absurd hobj (by simp [isObjectNonNull])
    | bool b => rw [h] at hobj; exact absurd hobj (by simp [isObjectNonNull])
    | arr xs =>
        rw [h] at hobj
        simp only [reconcileField, h, hT, hobj, hex] at hfind
        simp [jsGet, hfind]
    | obj fs =>
        rw [h] at hobj
        simp only [reconcileField, h, hT, hobj, hex] at hfind
        simp [jsGet, hfind]
  · intro k T hmem hundef
    rw [reconcile_eq_flatMap shape response hne hfal]
    have hfind := flatMap_reconcileField_find_mem shape
      (unwrapRoot (xmlToObj response)) response k T hmem hnd
    simp only [reconcileField, hundef] at hfind
    simp [jsGet, hfind]

/-- Witness for C7: response `<wrap><a><x>1</x></a></wrap>` with declared
fields `a` (plain text) and `b`: the root wrapper is unwrapped, `a` is
re-extracted as the raw substring `<x>1</x>`, and the absent `b` is
omitted. -/
theorem generateResponse_reconcile_spec_witness :
    unwrapRoot (xmlToObj "<wrap><a><x>1</x></a></wrap>")
      = JsVal.obj [("a", JsVal.obj [("x", JsVal.num "1")])] ∧
    jsGet (generateResponseReconcile [("a", ZType.zstring), ("b", ZType.zstring)]
        "<wrap><a><x>1</x></a></wrap>") "a" = JsVal.str "<x>1</x>" ∧
    jsGet (generateResponseReconcile [("a", ZType.zstring), ("b", ZType.zstring)]
        "<wrap><a><x>1</x></a></wrap>") "b" = JsVal.undef := by
  have h := generateResponse_reconcile_spec [("a", ZType.zstring), ("b", ZType.zstring)]
    "<wrap><a><x>1</x></a></wrap>" (by simp) rfl (by simp)
  refine ⟨h.1 "wrap" [("a", JsVal.obj [("x", JsVal.num "1")])] rfl (by simp), ?_, ?_⟩
  · exact h.2.1 "a" ZType.zstring "<x>1</x>" (by simp) rfl rfl rfl
  · exact h.2.2 "b" ZType.zstring (by simp) rfl

theorem string_mk_append (a b : List Char) :
    String.mk (a ++ b) = String.mk a ++ String.mk b := rfl

theorem string_push_eq (s : String) (c : Char) : s.push c = s ++ String.mk [c] := rfl

theorem string_append_assoc (a b c : String) : a ++ b ++ c = a ++ (b ++ c) := by
  cases a with | mk la =>
  cases b with | mk lb =>
  cases c with | mk lc =>
  show String.mk ((la ++ lb) ++ lc) = String.mk (la ++ (lb ++ lc))
  rw [List.append_assoc]

theorem tagSafeChar_ne_lt {c : Char} (h : tagSafeChar c = true) : c ≠ '<' := by
  intro hc; subst hc; exact absurd h (by decide)

theorem tagSafeChar_ne_gt {c : Char} (h : tagSafeChar c = true) : c ≠ '>' := by
  intro hc; subst hc; exact absurd h (by decide)

theorem tagSafeChar_ne_slash {c : Char} (h : tagSafeChar c = true) : c ≠ '/' := by
  intro hc; subst hc; exact absurd h (by decide)

theorem tagSafeChar_not_ws {c : Char} (h : tagSafeChar c = true) : jsWhitespace c = false := by
  cases hw : jsWhitespace c
  · rfl
  · exfalso
    simp only [jsWhitespace, Bool.or_eq_true, decide_eq_true_eq] at hw
    rcases hw with ((((h1 | h1) | h1) | h1) | h1) | h1 <;>
      (subst h1; exact absurd h (by decide))

theorem dropWhile_eq_self_of_none {p : Char → Bool} :
    ∀ l : List Char, (∀ c ∈ l, p c = false) → l.dropWhile p = l := by
  intro l h
  cases l with
  | nil => rfl
  | cons c rest => simp [List.dropWhile_cons, h c (by simp)]

theorem trimChars_eq_self_of_no_ws (cs : List Char)
    (h : ∀ c ∈ cs, jsWhitespace c = false) : trimChars cs = cs := by
  unfold trimChars
  rw [dropWhile_eq_self_of_none cs h,
      dropWhile_eq_self_of_none cs.reverse (fun c hc => h c (List.mem_reverse.mp hc)),
      List.reverse_reverse]

theorem processChars_append (st : ExtractorState) (a b : List Char) :
    processChars st (a ++ b)
      = ((processChars (processChars st a).1 b).1,
         (processChars st a).2 ++ (processChars (processChars st a).1 b).2) := by
  induction a generalizing st with
  | nil => simp [processChars]
  | cons c rest ih =>
      simp only [List.cons_append, processChars, List.append_eq]
      rw [ih]
      simp [List.append_assoc]

theorem updatesFor_append (p : String) (a b : List (String × String)) :
    updatesFor p (a ++ b) = updatesFor p a ++ updatesFor p b := by
  induction a with
  | nil => simp [updatesFor]
  | cons ev rest ih =>
      simp only [List.cons_append, updatesFor, List.append_eq]
      rw [ih, string_append_assoc]

theorem string_append_empty (s : String) : s ++ "" = s := by
  cases s with | mk l =>
  show String.mk (l ++ []) = String.mk l
  rw [List.append_nil]

theorem string_empty_append (s : String) : "" ++ s = s := rfl

theorem string_eta (s : String) : String.mk s.data = s := rfl

theorem pendStr_empty (p : String) (stack : List String) : pendStr p stack "" = "" := by
  simp [pendStr]

theorem updatesFor_flush (p : String) (stack : List String) (wb : String) :
    updatesFor p (if wb ≠ "" ∧ stack ≠ [] then [(joinPath stack, wb)] else [])
      = pendStr p stack wb := by
  by_cases h1 : wb = ""
  · subst h1
    simp [updatesFor, pendStr]
  · by_cases h2 : stack = []
    · subst h2
      simp [updatesFor, pendStr]
    · by_cases h3 : joinPath stack = p
      · simp [updatesFor, pendStr, h1, h2, h3, string_append_empty]
      · simp [updatesFor, pendStr, h1, h2, h3]

theorem processChar_lt (stack : List String) (ctn wb : String) (itag : Bool) :
    processChar ⟨stack, ctn, wb, itag⟩ '<'
      = (⟨stack, "", "", true⟩,
         if wb ≠ "" ∧ stack ≠ [] then [(joinPath stack, wb)] else []) := by
  simp [processChar]

theorem processChar_ws (stack : List String) (ctn wb : String) (c : Char)
    (hstack : stack ≠ []) (hc : c ≠ '<') (hws : c = ' ' ∨ c = '\n') :
    processChar ⟨stack, ctn, wb, false⟩ c
      = (⟨stack, ctn, "", false⟩,
         (if wb ≠ "" then [(joinPath stack, wb)] else []) ++ [(joinPath stack, String.mk [c])]) := by
  simp only [processChar]
  rw [if_neg hc, if_neg (by simp), if_neg (by simp), if_pos hstack, if_pos hws]

theorem processChar_text_char (stack : List String) (ctn wb : String) (c : Char)
    (hstack : stack ≠ []) (hc : c ≠ '<') (hws : ¬ (c = ' ' ∨ c = '\n')) :
    processChar ⟨stack, ctn, wb, false⟩ c = (⟨stack, ctn, wb.push c, false⟩, []) := by
  simp only [processChar]
  rw [if_neg hc, if_neg (by simp), if_neg (by simp), if_pos hstack, if_neg hws]

theorem processChar_skip (ctn wb : String) (c : Char) (hc : c ≠ '<') :
    processChar ⟨[], ctn, wb, false⟩ c = (⟨[], ctn, wb, false⟩, []) := by
  simp only [processChar]
  rw [if_neg hc, if_neg (by simp), if_neg (by simp), if_neg (by simp)]

theorem processChar_tagchar (stack : List String) (ctn wb : String) (c : Char)
    (hc : c ≠ '<') (hgt : c ≠ '>') :
    processChar ⟨stack, ctn, wb, true⟩ c = (⟨stack, ctn.push c, wb, true⟩, []) := by
  simp only [processChar]
  rw [if_neg hc, if_neg (by simp [hgt]), if_pos (by simp)]

theorem processChar_gt_open (stack : List String) (ctn wb : String)
    (hslash : startsWithSlash ctn = false) (htrim : jsTrim ctn ≠ "") :
    processChar ⟨stack, ctn, wb, true⟩ '>'
      = (⟨stack ++ [jsTrim ctn], "", "", false⟩, []) := by
  simp only [processChar]
  rw [if_neg (by decide), if_pos (by simp)]
  simp [hslash, htrim]

theorem processChar_gt_close (stack : List String) (ctn wb : String)
    (hslash : startsWithSlash ctn = true) :
    processChar ⟨stack, ctn, wb, true⟩ '>'
      = (⟨stack.dropLast, "", "", false⟩, []) := by
  simp only [processChar]
  rw [if_neg (by decide), if_pos (by simp)]
  simp [hslash]

theorem processChars_text (s : List Char) (stack : List String) (hstack : stack ≠ []) :
    ∀ (ctn wb : String), (∀ c ∈ s, c ≠ '<') →
    ∃ (wb' : String) (evs : List (String × String)),
      processChars ⟨stack, ctn, wb, false⟩ s = (⟨stack, ctn, wb', false⟩, evs) ∧
      ∀ p, updatesFor p evs ++ pendStr p stack wb'
            = pendStr p stack wb ++ (if joinPath stack = p then String.mk s else "") := by
  induction s with
  | nil =>
      intro ctn wb hs
      refine ⟨wb, [], rfl, ?_⟩
      intro p
      by_cases h : joinPath stack = p <;>
        simp [updatesFor, pendStr, h, hstack, string_append_empty, string_empty_append]
  | cons c rest ih =>
      intro ctn wb hs
      have hc : c ≠ '<' := hs c (by simp)
      have hrest : ∀ x ∈ rest, x ≠ '<' := fun x hx => hs x (by simp [hx])
      by_cases hws : c = ' ' ∨ c = '\n'
      · obtain ⟨wb', evs', heq, hinv⟩ := ih ctn "" hrest
        refine ⟨wb', (if wb ≠ "" then [(joinPath stack, wb)] else [])
          ++ [(joinPath stack, String.mk [c])] ++ evs', ?_, ?_⟩
        · simp only [processChars, processChar_ws stack ctn wb c hstack hc hws, heq,
            List.append_assoc]
        · intro p
          rw [updatesFor_append, updatesFor_append]
          rw [string_append_assoc, string_append_assoc, hinv p, pendStr_empty,
              string_empty_append]
          by_cases hp : joinPath stack = p
          · subst hp
            by_cases hwb : wb = ""
            · subst hwb
              simp [updatesFor, pendStr, hstack, string_append_empty, string_empty_append,
                ← string_mk_append, string_append_assoc, List.singleton_append]
            · simp [updatesFor, pendStr, hstack, hwb, string_append_empty,
                string_empty_append, ← string_mk_append, string_append_assoc,
                List.singleton_append]
          · by_cases hwb : wb = "" <;>
              simp [updatesFor, pendStr, hp, hwb, hstack, string_empty_append]
      · obtain ⟨wb', evs', heq, hinv⟩ := ih ctn (wb.push c) hrest
        refine ⟨wb', evs', ?_, ?_⟩
        · simp only [processChars, processChar_text_char stack ctn wb c hstack hc hws, heq,
            List.nil_append]
        · intro p
          rw [hinv p]
          by_cases hp : joinPath stack = p
          · simp only [pendStr, hstack, ne_eq, not_false_eq_true, true_and, hp, if_pos]
            rw [string_push_eq, string_append_assoc, ← string_mk_append]
            rfl
          · simp [pendStr, hp, hstack]

theorem processChars_text_nilstack (s : List Char) :
    ∀ (ctn wb : String), (∀ c ∈ s, c ≠ '<') →
      processChars ⟨[], ctn, wb, false⟩ s = (⟨[], ctn, wb, false⟩, []) := by
  induction s with
  | nil => intro ctn wb hs; rfl
  | cons c rest ih =>
      intro ctn wb hs
      simp only [processChars, processChar_skip ctn wb c (hs c (by simp)),
        ih ctn wb (fun x hx => hs x (by simp [hx])), List.nil_append]

theorem processChars_tagname (t : List Char) :
    ∀ (stack : List String) (ctn wb : String), (∀ c ∈ t, tagSafeChar c = true) →
      processChars ⟨stack, ctn, wb, true⟩ t = (⟨stack, ctn ++ String.mk t, wb, true⟩, []) := by
  induction t with
  | nil =>
      intro stack ctn wb ht
      simp [processChars, string_append_empty]
  | cons c rest ih =>
      intro stack ctn wb ht
      have hsafe := ht c (by simp)
      simp only [processChars,
        processChar_tagchar stack ctn wb c (tagSafeChar_ne_lt hsafe) (tagSafeChar_ne_gt hsafe),
        ih stack (ctn.push c) wb (fun x hx => ht x (by simp [hx])), List.nil_append]
      rw [string_push_eq, string_append_assoc, ← string_mk_append]
      rfl

theorem startsWithSlash_tag (t : String) (hne : t.data ≠ [])
    (hsafe : ∀ c ∈ t.data, tagSafeChar c = true) : startsWithSlash t = false := by
  cases h : t.data with
  | nil => exact absurd h hne
  | cons c0 r =>
      have hc0 : c0 ≠ '/' := tagSafeChar_ne_slash (hsafe c0 (by rw [h]; simp))
      simp [startsWithSlash, h, hc0]

theorem jsTrim_tag (t : String) (hsafe : ∀ c ∈ t.data, tagSafeChar c = true) :
    jsTrim t = t := by
  unfold jsTrim
  rw [trimChars_eq_self_of_no_ws _ (fun c hc => tagSafeChar_not_ws (hsafe c hc))]

theorem string_ne_empty_of_data {t : String} (h : t.data ≠ []) : t ≠ "" := by
  intro he
  subst he
  exact h rfl

theorem startsWithSlash_close (s : String) :
    startsWithSlash ("/" ++ s) = true := by
  cases s with | mk l => rfl

theorem renderNodes_nil : renderNodes [] = [] := by simp [renderNodes]

theorem renderNodes_stext (s : String) (rest : List SNode) :
    renderNodes (.stext s :: rest) = s.data ++ renderNodes rest := by
  simp [renderNodes]

theorem renderNodes_selem (t : String) (children rest : List SNode) :
    renderNodes (.selem t children :: rest)
      = '<' :: (t.data ++ '>' :: (renderNodes children
          ++ '<' :: '/' :: (t.data ++ '>' :: renderNodes rest))) := by
  simp [renderNodes]

theorem wfNodes_stext (s : String) (rest : List SNode) :
    wfNodes (.stext s :: rest) = (!s.data.contains '<' && wfNodes rest) := by
  simp [wfNodes]

theorem wfNodes_selem (t : String) (children rest : List SNode) :
    wfNodes (.selem t children :: rest)
      = (!t.data.isEmpty && t.data.all tagSafeChar && wfNodes children && wfNodes rest) := by
  simp [wfNodes]

theorem processChars_nodes (nodes : List SNode) :
    ∀ (stack : List String) (ctn wb : String), wfNodes nodes = true →
    ∃ (ctn' wb' : String) (evs : List (String × String)),
      processChars ⟨stack, ctn, wb, false⟩ (renderNodes nodes)
        = (⟨stack, ctn', wb', false⟩, evs) ∧
      ∀ p, updatesFor p evs ++ pendStr p stack wb'
            = pendStr p stack wb ++ refTextAt p stack nodes := by
  match nodes with
  | [] =>
      intro stack ctn wb hwf
      refine ⟨ctn, wb, [], ?_, ?_⟩
      · rw [renderNodes_nil]
        rfl
      · intro p
        simp [updatesFor, refTextAt, string_append_empty, string_empty_append]
  | .stext s :: rest =>
      intro stack ctn wb hwf
      rw [wfNodes_stext] at hwf
      simp only [Bool.and_eq_true] at hwf
      obtain ⟨hlt, hwfr⟩ := hwf
      have hmem : '<' ∉ s.data := by simpa using hlt
      have hs : ∀ c ∈ s.data, c ≠ '<' := fun c hc hceq => hmem (hceq ▸ hc)
      rw [renderNodes_stext]
      by_cases hstack : stack = []
      · subst hstack
        obtain ⟨ctn', wb', evsR, heqR, hinvR⟩ := processChars_nodes rest [] ctn wb hwfr
        refine ⟨ctn', wb', evsR, ?_, ?_⟩
        · rw [processChars_append, processChars_text_nilstack s.data ctn wb hs, heqR]
          simp
        · intro p
          rw [hinvR p]
          have : refTextAt p [] (SNode.stext s :: rest) = refTextAt p [] rest := by
            simp [refTextAt]
          rw [this]
      · obtain ⟨wbT, evsT, heqT, hinvT⟩ := processChars_text s.data stack hstack ctn wb hs
        obtain ⟨ctn', wb', evsR, heqR, hinvR⟩ := processChars_nodes rest stack ctn wbT hwfr
        refine ⟨ctn', wb', evsT ++ evsR, ?_, ?_⟩
        · rw [processChars_append, heqT]
          simp [heqR]
        · intro p
          rw [updatesFor_append, string_append_assoc, hinvR p, ← string_append_assoc,
            hinvT p, string_append_assoc]
          have hif : (if joinPath stack = p then String.mk s.data else "")
              = (if stack ≠ [] ∧ joinPath stack = p then s else "") := by
            by_cases hp : joinPath stack = p <;> simp [hp, hstack]
          rw [hif]
          have : refTextAt p stack (SNode.stext s :: rest)
              = (if stack ≠ [] ∧ joinPath stack = p then s else "") ++ refTextAt p stack rest := by
            simp [refTextAt]
          rw [this]
  | .selem t children :: rest =>
      intro stack ctn wb hwf
      rw [wfNodes_selem] at hwf
      simp only [Bool.and_eq_true] at hwf
      obtain ⟨⟨⟨hne, hsafe⟩, hwfc⟩, hwfr⟩ := hwf
      have hsafe' : ∀ c ∈ t.data, tagSafeChar c = true := fun c hc =>
        List.all_eq_true.mp hsafe c hc
      have htne : t.data ≠ [] := by simpa using hne
      obtain ⟨ctnC, wbC, evsC, heqC, hinvC⟩ :=
        processChars_nodes children (stack ++ [t]) "" "" hwfc
      obtain ⟨ctn', wb', evsR, heqR, hinvR⟩ := processChars_nodes rest stack "" "" hwfr
      simp only [pendStr_empty, string_empty_append] at hinvC hinvR
      rw [renderNodes_selem]
      refine ⟨ctn', wb', (if wb ≠ "" ∧ stack ≠ [] then [(joinPath stack, wb)] else [])
        ++ (evsC ++ ((if wbC ≠ "" ∧ stack ++ [t] ≠ [] then [(joinPath (stack ++ [t]), wbC)] else [])
        ++ evsR)), ?_, ?_⟩
      · simp only [processChars, processChar_lt]
        rw [processChars_append, processChars_tagname t.data stack "" "" hsafe']
        simp only [string_empty_append, string_eta]
        simp only [processChars,
          processChar_gt_open stack t "" (startsWithSlash_tag t htne hsafe')
            (by rw [jsTrim_tag t hsafe']; exact string_ne_empty_of_data htne),
          jsTrim_tag t hsafe']
        rw [processChars_append, heqC]
        simp only [processChars, processChar_lt]
        have hslashchar : ('/' : Char) ≠ '<' := by decide
        have hslashchar2 : ('/' : Char) ≠ '>' := by decide
        simp only [processChar_tagchar (stack ++ [t]) "" "" '/' hslashchar hslashchar2]
        rw [processChars_append, processChars_tagname t.data (stack ++ [t]) ("".push '/') "" hsafe']
        have hpush : ("".push '/' ++ String.mk t.data) = "/" ++ t := rfl
        rw [hpush]
        simp only [processChars, processChar_gt_close (stack ++ [t]) ("/" ++ t) ""
          (startsWithSlash_close t), List.dropLast_concat]
        rw [heqR]
        simp [List.append_assoc]
      · intro p
        simp only [updatesFor_append, string_append_assoc]
        rw [updatesFor_flush, updatesFor_flush, hinvR p]
        have hC : updatesFor p evsC ++ (pendStr p (stack ++ [t]) wbC
            ++ refTextAt p stack rest)
            = refTextAt p (stack ++ [t]) children ++ refTextAt p stack rest := by
          rw [← string_append_assoc, hinvC p]
        rw [hC]
        have : refTextAt p stack (SNode.selem t children :: rest)
            = refTextAt p (stack ++ [t]) children ++ refTextAt p stack rest := by
          simp [refTextAt]
        rw [this]

theorem runExtractor_doc (doc : List SNode) (hwf : wfNodes doc = true) (p : String) :
    updatesFor p (runExtractor (renderDoc doc)) = refTextAt p [] doc := by
  obtain ⟨ctn', wb', evs, heq, hinv⟩ := processChars_nodes doc [] "" "" hwf
  unfold runExtractor renderDoc
  rw [show (String.mk (renderNodes doc)).data = renderNodes doc from rfl]
  rw [show initExtractorState = (⟨[], "", "", false⟩ : ExtractorState) from rfl]
  rw [heq]
  simp only [ne_eq, List.cons_ne_self, and_false, not_true_eq_false, and_true, if_false]
  have h2 := hinv p
  simp only [pendStr, ne_eq, not_true_eq_false, false_and, if_false,
    string_append_empty, string_empty_append] at h2
  simpa [string_append_empty] using h2

theorem refTextAt_nil_nodes (p : String) (stack : List String) :
    refTextAt p stack [] = "" := by simp [refTextAt]

theorem refTextAt_stext (p : String) (stack : List String) (s : String) (rest : List SNode) :
    refTextAt p stack (.stext s :: rest)
      = (if stack ≠ [] ∧ joinPath stack = p then s else "") ++ refTextAt p stack rest := by
  simp [refTextAt]

theorem refTextAt_selem (p : String) (stack : List String) (t : String)
    (children rest : List SNode) :
    refTextAt p stack (.selem t children :: rest)
      = refTextAt p (stack ++ [t]) children ++ refTextAt p stack rest := by
  simp [refTextAt]

theorem leafTextAt_nil_nodes (p : String) (stack : List String) :
    leafTextAt p stack [] = "" := by simp [leafTextAt]

theorem leafTextAt_stext (p : String) (stack : List String) (s : String) (rest : List SNode) :
    leafTextAt p stack (.stext s :: rest) = leafTextAt p stack rest := by
  simp [leafTextAt]

theorem leafTextAt_selem (p : String) (stack : List String) (t : String)
    (children rest : List SNode) :
    leafTextAt p stack (.selem t children :: rest)
      = (if joinPath (stack ++ [t]) = p then directText children else "")
        ++ (leafTextAt p (stack ++ [t]) children ++ leafTextAt p stack rest) := by
  simp [leafTextAt]

theorem leafOnlyAt_stext (p : String) (stack : List String) (s : String) (rest : List SNode) :
    leafOnlyAt p stack (.stext s :: rest) = leafOnlyAt p stack rest := by
  simp [leafOnlyAt]

theorem leafOnlyAt_selem (p : String) (stack : List String) (t : String)
    (children rest : List SNode) :
    leafOnlyAt p stack (.selem t children :: rest)
      = ((if joinPath (stack ++ [t]) = p then allText children else true)
          && leafOnlyAt p (stack ++ [t]) children && leafOnlyAt p stack rest) := by
  simp [leafOnlyAt]

theorem refTextAt_allText (p : String) (children : List SNode) :
    ∀ (stack : List String), allText children = true → stack ≠ [] →
      joinPath stack = p → refTextAt p stack children = directText children := by
  induction children with
  | nil => intro stack hall hstack hp; simp [refTextAt_nil_nodes, directText]
  | cons n rest ih =>
      intro stack hall hstack hp
      cases n with
      | stext s =>
          rw [refTextAt_stext]
          simp only [allText] at hall
          rw [ih stack hall hstack hp]
          simp [hstack, hp, directText]
      | selem t cs => exact absurd hall (by simp [allText])

theorem leafTextAt_allText (p : String) (children : List SNode) :
    ∀ (stack : List String), allText children = true →
      leafTextAt p stack children = "" := by
  induction children with
  | nil => intro stack hall; simp [leafTextAt_nil_nodes]
  | cons n rest ih =>
      intro stack hall
      cases n with
      | stext s =>
          rw [leafTextAt_stext]
          simp only [allText] at hall
          exact ih stack hall
      | selem t cs => exact absurd hall (by simp [allText])

theorem refTextAt_eq_leafTextAt (p : String) (nodes : List SNode) :
    ∀ (stack : List String), leafOnlyAt p stack nodes = true →
      (stack = [] ∨ joinPath stack ≠ p) →
      refTextAt p stack nodes = leafTextAt p stack nodes := by
  match nodes with
  | [] =>
      intro stack hleaf hside
      simp [refTextAt_nil_nodes, leafTextAt_nil_nodes]
  | .stext s :: rest =>
      intro stack hleaf hside
      rw [refTextAt_stext, leafTextAt_stext]
      rw [leafOnlyAt_stext] at hleaf
      have hcond : ¬ (stack ≠ [] ∧ joinPath stack = p) := by
        rcases hside with h | h
        · simp [h]
        · simp [h]
      rw [if_neg hcond, string_empty_append]
      exact refTextAt_eq_leafTextAt p rest stack hleaf hside
  | .selem t children :: rest =>
      intro stack hleaf hside
      rw [refTextAt_selem, leafTextAt_selem]
      rw [leafOnlyAt_selem] at hleaf
      simp only [Bool.and_eq_true] at hleaf
      obtain ⟨⟨hIf, hLc⟩, hLr⟩ := hleaf
      by_cases hp2 : joinPath (stack ++ [t]) = p
      · have hall : allText children = true := by
          rw [if_pos hp2] at hIf
          exact hIf
        rw [refTextAt_allText p children (stack ++ [t]) hall (by simp) hp2]
        rw [leafTextAt_allText p children (stack ++ [t]) hall]
        rw [refTextAt_eq_leafTextAt p rest stack hLr hside]
        rw [if_pos hp2, string_empty_append]
      · rw [refTextAt_eq_leafTextAt p children (stack ++ [t]) hLc (Or.inr hp2)]
        rw [refTextAt_eq_leafTextAt p rest stack hLr hside]
        rw [if_neg hp2, string_empty_append]

/-- C3 (amended): for a response text that is a well-formed tag document (tags
are nonempty name-safe runs, text contains no stray `<`) and a path all of
whose element instances are leaves, feeding the text character-by-character
through the streaming extractor and concatenating all updates for that path
reproduces exactly the concatenated raw inner text of those leaf elements. -/
theorem streaming_concat_eq_leaf_text (doc : List SNode) (p : String)
    (hwf : wfNodes doc = true) (hleaf : leafOnlyAt p [] doc = true) :
    updatesFor p (runExtractor (renderDoc doc)) = leafTextAt p [] doc := by
  rw [runExtractor_doc doc hwf p]
  exact refTextAt_eq_leafTextAt p doc [] hleaf (Or.inl rfl)

/-- Witness for C3 (amended): the document `<answer>hello world</answer>` is
well formed, path `answer` is a leaf path, and the extractor's concatenated
updates for it reproduce the inner text exactly. -/
theorem streaming_concat_eq_leaf_text_witness :
    wfNodes [SNode.selem "answer" [SNode.stext "hello world"]] = true ∧
    updatesFor "answer"
        (runExtractor (renderDoc [SNode.selem "answer" [SNode.stext "hello world"]]))
      = "hello world" := by
  have hwf : wfNodes [SNode.selem "answer" [SNode.stext "hello world"]] = true := by
    simp [wfNodes]
    decide
  have hleaf : leafOnlyAt "answer" [] [SNode.selem "answer" [SNode.stext "hello world"]]
      = true := by
    simp [leafOnlyAt, allText]
  refine ⟨hwf, ?_⟩
  rw [streaming_concat_eq_leaf_text [SNode.selem "answer" [SNode.stext "hello world"]]
    "answer" hwf hleaf]
  simp [leafTextAt_selem, leafTextAt_stext, leafTextAt_nil_nodes, directText,
    show joinPath ["answer"] = "answer" from rfl, string_append_empty]

/-- Counterexample for C3: on the response text `<a>x < y</a>` the extractor
emits only `x` and a space for path `a` (the stray `<` swallows the rest),
while the raw inner text between the tags is `x < y`: characters are
dropped, so the unconditional streaming-equivalence claim fails. -/
theorem streaming_drops_stray_lt :
    updatesFor "a" (runExtractor "<a>x < y</a>") = "x " ∧
    extractField "<a>x < y</a>" "a" = some "x < y" ∧
    ("x " : String) ≠ "x < y" := by
  refine ⟨rfl, rfl, by decide⟩

theorem splitOnFirst_head_match {needle cs : List Char} (h : needle.isPrefixOf cs = true) :
    splitOnFirst needle cs = some ([], cs.drop needle.length) := by
  cases cs with
  | nil =>
      simp only [splitOnFirst, h, if_pos]
      simp
  | cons c rest => simp only [splitOnFirst, h, if_pos]

theorem splitOnFirst_boundary (needle : List Char) :
    ∀ (pre post : List Char),
      (∀ i, i < pre.length → ¬ needle <+: ((pre ++ needle ++ post).drop i)) →
      splitOnFirst needle (pre ++ needle ++ post) = some (pre, post) := by
  intro pre
  induction pre with
  | nil =>
      intro post hocc
      simp only [List.nil_append]
      rw [splitOnFirst_head_match (List.isPrefixOf_iff_prefix.mpr (List.prefix_append needle post))]
      simp
  | cons c pre' ih =>
      intro post hocc
      have h0 : ¬ needle <+: (c :: pre' ++ needle ++ post) := by
        simpa using hocc 0 (by simp)
      show splitOnFirst needle (c :: (pre' ++ needle ++ post)) = _
      simp only [splitOnFirst]
      rw [if_neg (fun hpref => h0 (by
        simpa using List.isPrefixOf_iff_prefix.mp hpref))]
      rw [ih post (fun i hi => by
        have h2 := hocc (i + 1) (by simpa using hi)
        simpa using h2)]
      rfl

theorem splitOnFirst_gt :
    ∀ (t post : List Char), (∀ c ∈ t, c ≠ '>') →
      splitOnFirst ['>'] (t ++ '>' :: post) = some (t, post) := by
  intro t
  induction t with
  | nil =>
      intro post hcs
      show splitOnFirst ['>'] ('>' :: post) = _
      rw [splitOnFirst_head_match (by simp [List.isPrefixOf])]
      simp
  | cons c t' ih =>
      intro post hcs
      show splitOnFirst ['>'] (c :: (t' ++ '>' :: post)) = _
      simp only [splitOnFirst]
      rw [if_neg (by
        intro hpref
        have h2 : ('>' : Char) = c :=
          (List.cons_prefix_cons.mp (List.isPrefixOf_iff_prefix.mp hpref)).1
        exact hcs c (by simp) h2.symm)]
      rw [ih post (fun x hx => hcs x (by simp [hx]))]
      rfl

theorem flatToks_append : ∀ (a b : List XmlTok),
    flatToks (a ++ b) = flatToks a ++ flatToks b := by
  intro a
  induction a with
  | nil => intro b; simp [flatToks]
  | cons tok rest ih =>
      intro b
      cases tok <;> simp [flatToks, ih, List.append_assoc]

theorem tag_close_eq :
    ∀ (k t r : List Char), (∀ c ∈ k, c ≠ '>') → (∀ c ∈ t, c ≠ '>') →
      (k ++ ['>']) <+: (t ++ '>' :: r) → k = t := by
  intro k
  induction k with
  | nil =>
      intro t r hk ht h
      cases t with
      | nil => rfl
      | cons c t' =>
          exfalso
          have h2 : ('>' : Char) = c := by
            have h3 : ('>' :: [] : List Char) <+: c :: (t' ++ '>' :: r) := by simpa using h
            exact (List.cons_prefix_cons.mp h3).1
          exact ht c (by simp) h2.symm
  | cons a k' ih =>
      intro t r hk ht h
      cases t with
      | nil =>
          exfalso
          have h2 : a = '>' := (List.cons_prefix_cons.mp (by simpa using h)).1
          exact hk a (by simp) h2
      | cons c t' =>
          have h2 := List.cons_prefix_cons.mp (by simpa using h)
          have h3 : k' = t' := ih t' r (fun x hx => hk x (by simp [hx]))
            (fun x hx => ht x (by simp [hx])) (by simpa using h2.2)
          rw [h2.1, h3]

theorem run_occurrence :
    ∀ (t : List Char), (∀ c ∈ t, c ≠ '<') →
      ∀ (i : Nat) (rest xs : List Char),
        ('<' :: xs) <+: ((t ++ '>' :: rest).drop i) →
        ∃ j, i = t.length + 1 + j ∧ ('<' :: xs) <+: rest.drop j := by
  intro t
  induction t with
  | nil =>
      intro ht i rest xs h
      cases i with
      | zero =>
          exfalso
          simpa using h
      | succ j =>
          refine ⟨j, by simp; omega, ?_⟩
          simpa using h
  | cons c t' ih =>
      intro ht i rest xs h
      cases i with
      | zero =>
          exfalso
          have h2 : ('<' : Char) = c := (List.cons_prefix_cons.mp (by simpa using h)).1
          exact ht c (by simp) h2.symm
      | succ i' =>
          obtain ⟨j, hj, hpref⟩ := ih (fun x hx => ht x (by simp [hx])) i' rest xs
            (by simpa using h)
          exact ⟨j, by simp [hj]; omega, hpref⟩

theorem occurrence_close :
    ∀ (ts : List XmlTok) (k : List Char),
      (∀ tok ∈ ts, goodTok tok = true) → (!k.isEmpty && k.all tagSafeChar) = true →
      ∀ (i : Nat) (ext : List Char),
        i < (flatToks ts).length →
        closeTagChars k <+: ((flatToks ts ++ ext).drop i) →
        ∃ pre post, ts = pre ++ .tclose k :: post ∧ i = (flatToks pre).length := by
  intro ts
  induction ts with
  | nil =>
      intro k hgood hk i ext hi h
      simp [flatToks] at hi
  | cons tok rest ih =>
      intro k hgood hk i ext hi h
      have hk2 : k.all tagSafeChar = true := by
        simp only [Bool.and_eq_true] at hk
        exact hk.2
      have hkchars : ∀ c ∈ k, c ≠ '>' := fun c hc =>
        tagSafeChar_ne_gt (List.all_eq_true.mp hk2 c hc)
      cases tok with
      | tch c =>
          have hc : c ≠ '<' := by
            have := hgood (.tch c) (by simp)
            simpa [goodTok] using this
          cases i with
          | zero =>
              exfalso
              have h2 : ('<' : Char) = c := by
                have hflat : flatToks (.tch c :: rest) ++ ext = c :: (flatToks rest ++ ext) := by
                  simp [flatToks]
                rw [hflat] at h
                exact (List.cons_prefix_cons.mp (by simpa [closeTagChars] using h)).1
              exact hc h2.symm
          | succ i' =>
              have hflat : flatToks (.tch c :: rest) ++ ext = c :: (flatToks rest ++ ext) := by
                simp [flatToks]
              rw [hflat] at h
              obtain ⟨pre, post, hts, hidx⟩ := ih k (fun x hx => hgood x (by simp [hx])) hk i' ext
                (by simp [flatToks] at hi; omega) (by simpa using h)
              exact ⟨.tch c :: pre, post, by simp [hts], by simp [flatToks, hidx]⟩
      | topen t =>
          have htgood := hgood (.topen t) (by simp)
          simp only [goodTok, Bool.and_eq_true] at htgood
          have htchars : ∀ c ∈ t, c ≠ '<' := fun c hc =>
            tagSafeChar_ne_lt (List.all_eq_true.mp htgood.2 c hc)
          have hflat : flatToks (.topen t :: rest) ++ ext
              = '<' :: (t ++ '>' :: (flatToks rest ++ ext)) := by
            simp [flatToks, List.append_assoc]
          cases i with
          | zero =>
              exfalso
              rw [hflat] at h
              have h2 : '/' :: (k ++ ['>']) <+: t ++ '>' :: (flatToks rest ++ ext) := by
                simpa [closeTagChars] using h
              cases t with
              | nil => simp at htgood
              | cons c0 t'' =>
                  have h4 : ('/' : Char) :: (k ++ ['>'])
                      <+: c0 :: (t'' ++ '>' :: (flatToks rest ++ ext)) := by
                    simpa using h2
                  have h3 : ('/' : Char) = c0 := (List.cons_prefix_cons.mp h4).1
                  have : tagSafeChar c0 = true := List.all_eq_true.mp htgood.2 c0 (by simp)
                  exact tagSafeChar_ne_slash this h3.symm
          | succ i' =>
              rw [hflat] at h
              obtain ⟨j, hj, hpref⟩ := run_occurrence t htchars i' (flatToks rest ++ ext)
                ('/' :: k ++ ['>']) (by simpa [closeTagChars] using h)
              have hjlt : j < (flatToks rest).length := by
                simp only [flatToks] at hi
                simp at hi
                omega
              obtain ⟨pre, post, hts, hidx⟩ := ih k (fun x hx => hgood x (by simp [hx])) hk j ext
                hjlt (by simpa [closeTagChars] using hpref)
              refine ⟨.topen t :: pre, post, by simp [hts], ?_⟩
              simp [flatToks, hidx, hj]
              omega
      | tclose t =>
          have htgood := hgood (.tclose t) (by simp)
          simp only [goodTok, Bool.and_eq_true] at htgood
          have htchars : ∀ c ∈ t, c ≠ '<' := fun c hc =>
            tagSafeChar_ne_lt (List.all_eq_true.mp htgood.2 c hc)
          have htgt : ∀ c ∈ t, c ≠ '>' := fun c hc =>
            tagSafeChar_ne_gt (List.all_eq_true.mp htgood.2 c hc)
          have hflat : flatToks (.tclose t :: rest) ++ ext
              = '<' :: '/' :: (t ++ '>' :: (flatToks rest ++ ext)) := by
            simp [flatToks, List.append_assoc]
          cases i with
          | zero =>
              rw [hflat] at h
              have h3 : k ++ ['>'] <+: t ++ '>' :: (flatToks rest ++ ext) := by
                simpa [closeTagChars] using h
              have h4 : k = t := tag_close_eq k t (flatToks rest ++ ext) hkchars htgt h3
              exact ⟨[], rest, by simp [h4], by simp [flatToks]⟩
          | succ i' =>
              cases i' with
              | zero =>
                  exfalso
                  rw [hflat] at h
                  simpa [closeTagChars] using h
              | succ i2 =>
                  rw [hflat] at h
                  obtain ⟨j, hj, hpref⟩ := run_occurrence t htchars i2 (flatToks rest ++ ext)
                    ('/' :: k ++ ['>']) (by simpa [closeTagChars] using h)
                  have hjlt : j < (flatToks rest).length := by
                    simp only [flatToks] at hi
                    simp at hi
                    omega
                  obtain ⟨pre, post, hts, hidx⟩ := ih k (fun x hx => hgood x (by simp [hx])) hk j
                    ext hjlt (by simpa [closeTagChars] using hpref)
                  refine ⟨.tclose t :: pre, post, by simp [hts], ?_⟩
                  simp [flatToks, hidx, hj]
                  omega

theorem flatToks_tch : ∀ s : List Char, flatToks (s.map XmlTok.tch) = s := by
  intro s
  induction s with
  | nil => rfl
  | cons c rest ih => simp [flatToks, ih]

theorem forestToks_append : ∀ f g : TagForest,
    forestToks (forestAppend f g) = forestToks f ++ forestToks g := by
  intro f g
  match f with
  | .nil => simp [forestAppend, forestToks]
  | .node t b r =>
      simp [forestAppend, forestToks, forestToks_append r g, List.append_assoc]

theorem forestTags_append : ∀ f g : TagForest,
    forestTags (forestAppend f g) = forestTags f ++ forestTags g := by
  intro f g
  match f with
  | .nil => simp [forestAppend, forestTags]
  | .node t b r =>
      simp [forestAppend, forestTags, forestTags_append r g, List.append_assoc]

theorem tagSafeChar_tagName {c : Char} (h : tagSafeChar c = true) : tagNameChar c = true := by
  simp only [tagNameChar, Bool.and_eq_true, Bool.not_eq_true']
  refine ⟨⟨?_, tagSafeChar_not_ws h⟩, ?_⟩
  · exact decide_eq_false (tagSafeChar_ne_gt h)
  · exact decide_eq_false (tagSafeChar_ne_slash h)

theorem takeWhile_all_eq {p : Char → Bool} :
    ∀ l : List Char, (∀ c ∈ l, p c = true) → l.takeWhile p = l := by
  intro l h
  induction l with
  | nil => rfl
  | cons c rest ih =>
      simp [List.takeWhile_cons, h c (by simp), ih (fun x hx => h x (by simp [hx]))]

theorem contains_head_lt (mid : List Char) :
    (('<' :: mid ++ ['>']).contains '<') = true := by
  simp [List.contains]

theorem trimChars_of_ends (c d : Char) (mid : List Char)
    (hc : jsWhitespace c = false) (hd : jsWhitespace d = false) :
    trimChars (c :: (mid ++ [d])) = c :: (mid ++ [d]) := by
  unfold trimChars
  rw [List.dropWhile_cons, if_neg (by simp [hc])]
  have h1 : (c :: (mid ++ [d])).reverse = d :: (mid.reverse ++ [c]) := by simp
  rw [h1, List.dropWhile_cons, if_neg (by simp [hd]), ← h1, List.reverse_reverse]

theorem forest_flat_shape : ∀ F : TagForest,
    F = .nil ∨ ∃ mid, flatToks (forestToks F) = '<' :: (mid ++ ['>']) := by
  intro F
  match F with
  | .nil => exact Or.inl rfl
  | .node t b r =>
      refine Or.inr ?_
      rcases forest_flat_shape r with hnil | ⟨mid, hmid⟩
      · subst hnil
        refine ⟨t ++ '>' :: (flatToks (bodyToks b) ++ '<' :: '/' :: t), ?_⟩
        simp [forestToks, flatToks, flatToks_append, List.append_assoc]
      · refine ⟨t ++ '>' :: (flatToks (bodyToks b) ++ '<' :: '/' :: (t ++ '>' :: '<' :: mid)), ?_⟩
        simp [forestToks, flatToks, flatToks_append, hmid, List.append_assoc]

mutual
theorem tclose_mem_forest : ∀ (F : TagForest) (k : List Char),
    XmlTok.tclose k ∈ forestToks F → k ∈ forestTags F := by
  intro F k h
  match F with
  | .nil => simp [forestToks] at h
  | .node t b r =>
      simp only [forestToks, List.mem_cons, List.mem_append] at h
      rcases h with h | h
      · exact absurd h (by simp)
      rcases h with h | h
      · exact List.mem_cons_of_mem _ (List.mem_append_left _ (tclose_mem_body b k h))
      rcases h with h | h
      · have hk : k = t := by
          injection h
        simp [forestTags, hk]
      · exact List.mem_cons_of_mem _ (List.mem_append_right _ (tclose_mem_forest r k h))

theorem tclose_mem_body : ∀ (b : TagBody) (k : List Char),
    XmlTok.tclose k ∈ bodyToks b → k ∈ bodyTags b := by
  intro b k h
  match b with
  | .btext s =>
      exfalso
      simp only [bodyToks, List.mem_map] at h
      obtain ⟨c, _, hc⟩ := h
      exact absurd hc (by simp)
  | .bforest f => exact tclose_mem_forest f k h
end

mutual
theorem wf_goodToks_forest : ∀ (F : TagForest), wfForest F = true →
    ∀ tok ∈ forestToks F, goodTok tok = true := by
  intro F hwf tok htok
  match F with
  | .nil => simp [forestToks] at htok
  | .node t b r =>
      simp only [wfForest, Bool.and_eq_true] at hwf
      obtain ⟨⟨⟨⟨hne, hsafe⟩, hnot⟩, hwfb⟩, hwfr⟩ := hwf
      simp only [forestToks, List.mem_cons, List.mem_append] at htok
      rcases htok with h | h
      · subst h; simp [goodTok, hne, hsafe]
      rcases h with h | h
      · exact wf_goodToks_body b hwfb tok h
      rcases h with h | h
      · subst h; simp [goodTok, hne, hsafe]
      · exact wf_goodToks_forest r hwfr tok h

theorem wf_goodToks_body : ∀ (b : TagBody), wfBody b = true →
    ∀ tok ∈ bodyToks b, goodTok tok = true := by
  intro b hwf tok htok
  match b with
  | .btext s =>
      simp only [bodyToks, List.mem_map] at htok
      obtain ⟨c, hc, hct⟩ := htok
      subst hct
      simp only [goodTok, Bool.not_eq_true']
      simp only [wfBody, Bool.not_eq_true'] at hwf
      simp at hwf
      exact decide_eq_false (fun heq => hwf (heq ▸ hc))
  | .bforest f => exact wf_goodToks_forest f hwf tok htok
end

theorem scanTagsF_forest : ∀ (F : TagForest) (fuel : Nat), wfForest F = true →
    (flatToks (forestToks F)).length ≤ fuel →
    scanTagsF fuel (flatToks (forestToks F)) = forestBlocks F := by
  intro F fuel hwf hfuel
  match F with
  | .nil =>
      cases fuel <;> simp [forestToks, flatToks, scanTagsF, forestBlocks]
  | .node t b r =>
      simp only [wfForest, Bool.and_eq_true] at hwf
      obtain ⟨⟨⟨⟨hne, hsafe⟩, hnot⟩, hwfb⟩, hwfr⟩ := hwf
      have hflat : flatToks (forestToks (TagForest.node t b r))
          = '<' :: (t ++ '>' :: (flatToks (bodyToks b)
              ++ (closeTagChars t ++ flatToks (forestToks r)))) := by
        simp [forestToks, flatToks, flatToks_append, closeTagChars, List.append_assoc]
      have hts : ∀ c ∈ t, c ≠ '>' := fun c hc =>
        tagSafeChar_ne_gt (List.all_eq_true.mp hsafe c hc)
      have htn : ∀ c ∈ t, tagNameChar c = true := fun c hc =>
        tagSafeChar_tagName (List.all_eq_true.mp hsafe c hc)
      have hnotmem : t ∉ bodyTags b := by simpa using hnot
      have hocc : ∀ i, i < (flatToks (bodyToks b)).length →
          ¬ closeTagChars t <+:
            ((flatToks (bodyToks b) ++ closeTagChars t ++ flatToks (forestToks r)).drop i) := by
        intro i hi h
        have h' : closeTagChars t <+:
            ((flatToks (bodyToks b) ++ (closeTagChars t ++ flatToks (forestToks r))).drop i) := by
          rw [← List.append_assoc]
          exact h
        obtain ⟨pre, post, heq, _⟩ := occurrence_close (bodyToks b) t
          (wf_goodToks_body b hwfb) (by simp [hne, hsafe]) i
          (closeTagChars t ++ flatToks (forestToks r)) hi h'
        have hmem : XmlTok.tclose t ∈ bodyToks b := heq ▸ (by simp)
        exact hnotmem (tclose_mem_body b t hmem)
      have hsplit : splitOnFirst (closeTagChars t)
          (flatToks (bodyToks b) ++ (closeTagChars t ++ flatToks (forestToks r)))
          = some (flatToks (bodyToks b), flatToks (forestToks r)) := by
        rw [← List.append_assoc]
        exact splitOnFirst_boundary (closeTagChars t) (flatToks (bodyToks b))
          (flatToks (forestToks r)) hocc
      cases t with
      | nil => simp at hne
      | cons c0 t' =>
      have hopen : tryOpenTag ('<' :: ((c0 :: t') ++ '>' :: (flatToks (bodyToks b)
              ++ (closeTagChars (c0 :: t') ++ flatToks (forestToks r)))))
          = some (c0 :: t', flatToks (bodyToks b), flatToks (forestToks r)) := by
        simp only [tryOpenTag]
        rw [splitOnFirst_gt (c0 :: t') _ hts]
        show tryCloseSearch ((c0 :: t').takeWhile tagNameChar)
            (flatToks (bodyToks b) ++ (closeTagChars (c0 :: t') ++ flatToks (forestToks r)))
            ((c0 :: t').takeWhile tagNameChar).length
          = some (c0 :: t', flatToks (bodyToks b), flatToks (forestToks r))
        rw [takeWhile_all_eq (c0 :: t') htn]
        simp only [List.length_cons, tryCloseSearch, List.take_succ_cons, List.take_length]
        rw [hsplit]
      cases fuel with
      | zero =>
          exfalso
          rw [hflat] at hfuel
          simp at hfuel
      | succ f =>
          rw [hflat]
          simp only [scanTagsF, if_pos rfl, hopen]
          have hlen : (flatToks (forestToks r)).length ≤ f := by
            rw [hflat] at hfuel
            simp [List.length_append] at hfuel
            omega
          rw [scanTagsF_forest r f hwfr hlen]
          simp [forestBlocks]

mutual
theorem valForest_chars (v : JsVal) (pk : Option String) :
    flatToks (forestToks (valForest v pk)) = objToXmlChars v pk := by
  match v with
  | .arr xs =>
      simp [valForest, objToXmlChars, wrapTag, forestToks, bodyToks, flatToks,
        flatToks_append, itemsForest_chars xs, List.append_assoc]
  | .obj fs =>
      cases hd : allEntriesDropped fs with
      | true =>
          simp [valForest, objToXmlChars, hd, wrapTag, forestToks, bodyToks, flatToks,
            flatToks_tch, flatToks_append, List.append_assoc]
      | false =>
          cases pk with
          | some k =>
              simp [valForest, objToXmlChars, hd, wrapTag, forestToks, bodyToks, flatToks,
                flatToks_append, entriesForest_chars fs, List.append_assoc]
          | none =>
              simp [valForest, objToXmlChars, hd, entriesForest_chars fs]
  | .null =>
      simp [valForest, objToXmlChars, wrapTag, forestToks, bodyToks, flatToks,
        flatToks_tch, flatToks_append, jsString, List.append_assoc]
  | .undef =>
      simp [valForest, objToXmlChars, wrapTag, forestToks, bodyToks, flatToks,
        flatToks_tch, flatToks_append, jsString, List.append_assoc]
  | .str s =>
      simp [valForest, objToXmlChars, wrapTag, forestToks, bodyToks, flatToks,
        flatToks_tch, flatToks_append, List.append_assoc]
  | .num lit =>
      simp [valForest, objToXmlChars, wrapTag, forestToks, bodyToks, flatToks,
        flatToks_tch, flatToks_append, List.append_assoc]
  | .bool bb =>
      simp [valForest, objToXmlChars, wrapTag, forestToks, bodyToks, flatToks,
        flatToks_tch, flatToks_append, List.append_assoc]

theorem itemsForest_chars (xs : List JsVal) :
    flatToks (forestToks (itemsForest xs)) = arrayItemsChars xs := by
  match xs with
  | [] => rfl
  | x :: rest =>
      cases htx : typeofObject x with
      | false =>
          simp [itemsForest, arrayItemsChars, htx, wrapTag, forestToks, bodyToks, flatToks,
            flatToks_tch, flatToks_append, itemsForest_chars rest, List.append_assoc]
      | true =>
          simp [itemsForest, arrayItemsChars, htx, wrapTag, forestToks, bodyToks, flatToks,
            flatToks_append, valForest_chars x none, itemsForest_chars rest, List.append_assoc]

theorem entriesForest_chars (fs : List (String × JsVal)) :
    flatToks (forestToks (entriesForest fs)) = objEntriesChars fs := by
  match fs with
  | [] => rfl
  | (k, v) :: rest =>
      cases hnv : isNullOrUndef v with
      | true => simp [entriesForest, objEntriesChars, hnv, entriesForest_chars rest]
      | false =>
          cases htv : typeofObject v with
          | false =>
              simp [entriesForest, objEntriesChars, hnv, htv, forestToks, bodyToks, flatToks,
                flatToks_tch, flatToks_append, entriesForest_chars rest, List.append_assoc]
          | true =>
              simp [entriesForest, objEntriesChars, hnv, htv, forestToks_append,
                flatToks_append, valForest_chars v (some k), entriesForest_chars rest]
end

theorem alpha_tagSafe {c : Char} (h : c.isAlpha = true) : tagSafeChar c = true := by
  simp [tagSafeChar, h]

theorem sanitize_goodKey (k : String) (h : goodKey k = true) : sanitizeTagName k = k := by
  cases hk : k.data with
  | nil =>
      simp only [goodKey, hk] at h
      exact absurd h (by decide)
  | cons c rest =>
      simp only [goodKey, hk, Bool.and_eq_true] at h
      obtain ⟨⟨halpha, hsafe⟩, hitem⟩ := h
      have hmap : (c :: rest).map (fun c => if tagSafeChar c then c else '_') = c :: rest := by
        rw [List.map_congr_left, List.map_id']
        intro x hx
        rcases List.mem_cons.mp hx with hx | hx
        · subst hx; simp [alpha_tagSafe halpha]
        · simp [List.all_eq_true.mp hsafe x hx]
      unfold sanitizeTagName
      rw [hk, hmap]
      simp only [halpha, if_pos]
      rw [← hk]

theorem digit_not_ws {c : Char} (h : c.isDigit = true) : jsWhitespace c = false := by
  cases hx : jsWhitespace c with
  | false => rfl
  | true =>
      exfalso
      simp only [jsWhitespace, Bool.or_eq_true, decide_eq_true_eq] at hx
      rcases hx with ((((h1|h1)|h1)|h1)|h1)|h1 <;> subst h1 <;> exact absurd h (by decide)

theorem numericLiteral_chars (cs : List Char) (h : numericLiteral cs = true) :
    ∀ c ∈ cs, c.isDigit = true ∨ c = '.' := by
  intro c hc
  simp only [numericLiteral, Bool.and_eq_true, Bool.or_eq_true] at h
  obtain ⟨hne, hrest⟩ := h
  obtain ⟨t, ht⟩ := List.takeWhile_prefix (p := Char.isDigit) (l := cs)
  have hdrop : cs.drop (cs.takeWhile Char.isDigit).length = t := by
    nth_rewrite 2 [← ht]
    exact List.drop_left _ _
  rw [hdrop] at hrest
  have hc2 : c ∈ cs.takeWhile Char.isDigit ++ t := by rw [ht]; exact hc
  rcases List.mem_append.mp hc2 with hip | hit
  · exact Or.inl (List.mem_takeWhile_imp hip)
  · rcases hrest with hemp | hmatch
    · rw [List.isEmpty_iff.mp hemp] at hit
      simp at hit
    · cases t with
      | nil => simp at hit
      | cons d frac =>
          have hd : d = '.' ∧ (!frac.isEmpty && frac.all Char.isDigit) = true := by
            by_cases hdd : d = '.'
            · subst hdd; exact ⟨rfl, hmatch⟩
            · exfalso
              have : (match d :: frac with
                  | '.' :: frac => !frac.isEmpty && frac.all Char.isDigit
                  | _ => false) = false := by
                have hne2 : ('.' : Char) ≠ d := fun he => hdd he.symm
                simp [hne2.symm]
              rw [this] at hmatch
              exact absurd hmatch (by decide)
          obtain ⟨hdd, hfrac⟩ := hd
          subst hdd
          rcases List.mem_cons.mp hit with hcd | hcf
          · exact Or.inr hcd
          · simp only [Bool.and_eq_true] at hfrac
            exact Or.inl (List.all_eq_true.mp hfrac.2 c hcf)

theorem goodVal_not_null {v : JsVal} (hg : goodVal v = true) : isNullOrUndef v = false := by
  cases v with
  | null => exact absurd hg (by decide)
  | undef => exact absurd hg (by decide)
  | str s => rfl
  | num lit => rfl
  | bool b => rfl
  | arr xs => rfl
  | obj fs => rfl

theorem good_not_dropped : ∀ (fs : List (String × JsVal)), fs ≠ [] → goodEntries fs = true →
    allEntriesDropped fs = false := by
  intro fs hne hg
  match fs with
  | [] => exact absurd rfl hne
  | (k, v) :: rest =>
      simp only [goodEntries, Bool.and_eq_true] at hg
      have hv := goodVal_not_null hg.1.2
      simp [allEntriesDropped, hv]

theorem scalar_no_lt (v : JsVal) (hobj : typeofObject v = false) (hg : goodVal v = true) :
    ((jsString v).data.contains '<') = false := by
  cases v with
  | null => simp [typeofObject] at hobj
  | arr xs => simp [typeofObject] at hobj
  | obj fs => simp [typeofObject] at hobj
  | undef => exact absurd hg (by decide)
  | bool b => cases b <;> decide
  | str s =>
      simp only [goodVal, goodScalarString, Bool.and_eq_true] at hg
      obtain ⟨⟨⟨⟨⟨htr, hlt⟩, hgt⟩, ht⟩, hf⟩, hnum⟩ := hg
      simpa [jsString] using hlt
  | num lit =>
      have hchars := numericLiteral_chars lit.data (by simpa [goodVal] using hg)
      simp only [jsString]
      cases hx : lit.data.contains '<' with
      | false => rfl
      | true =>
          exfalso
          have hmem : '<' ∈ lit.data := by simpa using hx
          rcases hchars '<' hmem with hd | hd
          · exact absurd hd (by decide)
          · exact absurd hd (by decide)

theorem scalar_trim (v : JsVal) (hobj : typeofObject v = false) (hg : goodVal v = true) :
    trimChars (jsString v).data = (jsString v).data := by
  cases v with
  | null => simp [typeofObject] at hobj
  | arr xs => simp [typeofObject] at hobj
  | obj fs => simp [typeofObject] at hobj
  | undef => exact absurd hg (by decide)
  | bool b => cases b <;> decide
  | str s =>
      simp only [goodVal, goodScalarString, Bool.and_eq_true] at hg
      obtain ⟨⟨⟨⟨⟨htr, hlt⟩, hgt⟩, ht⟩, hf⟩, hnum⟩ := hg
      simpa [jsString] using of_decide_eq_true htr
  | num lit =>
      have hchars := numericLiteral_chars lit.data (by simpa [goodVal] using hg)
      simp only [jsString]
      apply trimChars_eq_self_of_no_ws
      intro c hc
      rcases hchars c hc with hd | hd
      · exact digit_not_ws hd
      · subst hd; decide

theorem coerce_scalar_good (v : JsVal) (hobj : typeofObject v = false) (hg : goodVal v = true) :
    coerceScalar (jsString v).data = v := by
  cases v with
  | null => simp [typeofObject] at hobj
  | arr xs => simp [typeofObject] at hobj
  | obj fs => simp [typeofObject] at hobj
  | undef => exact absurd hg (by decide)
  | bool b => cases b <;> rfl
  | str s =>
      simp only [goodVal, goodScalarString, Bool.and_eq_true] at hg
      obtain ⟨⟨⟨⟨⟨htr, hlt⟩, hgt⟩, ht⟩, hf⟩, hnum⟩ := hg
      have h1 : s.data ≠ "true".data := by
        intro he
        have h2 : s = "true" := congrArg String.mk he
        rw [h2] at ht
        exact absurd ht (by decide)
      have h2 : s.data ≠ "false".data := by
        intro he
        have h3 : s = "false" := congrArg String.mk he
        rw [h3] at hf
        exact absurd hf (by decide)
      have h3 : numericLiteral s.data = false := by simpa using hnum
      simp [coerceScalar, jsString, h1, h2, h3, string_eta]
  | num lit =>
      have hn : numericLiteral lit.data = true := by simpa [goodVal] using hg
      have h1 : lit.data ≠ "true".data := by
        intro he
        rw [he] at hn
        exact absurd hn (by decide)
      have h2 : lit.data ≠ "false".data := by
        intro he
        rw [he] at hn
        exact absurd hn (by decide)
      simp [coerceScalar, jsString, h1, h2, hn, string_eta]

theorem goodVal_obj {fs : List (String × JsVal)} (hg : goodVal (.obj fs) = true) :
    fs ≠ [] ∧ goodEntries fs = true ∧ keysDistinct fs = true := by
  simp only [goodVal, Bool.and_eq_true] at hg
  refine ⟨?_, hg.1.2, hg.2⟩
  have h1 : fs.isEmpty = false := by simpa using hg.1.1
  cases fs with
  | nil => simp at h1
  | cons a l => simp

theorem goodVal_arr {xs : List JsVal} (hg : goodVal (.arr xs) = true) :
    xs ≠ [] ∧ goodElems xs = true := by
  simp only [goodVal, Bool.and_eq_true] at hg
  refine ⟨?_, hg.2⟩
  have h1 : xs.isEmpty = false := by simpa using hg.1
  cases xs with
  | nil => simp at h1
  | cons a l => simp

theorem goodKey_parts (k : String) (h : goodKey k = true) :
    k.data ≠ [] ∧ k.data.all tagSafeChar = true ∧ k ≠ "item" := by
  cases hk : k.data with
  | nil =>
      simp only [goodKey, hk] at h
      exact absurd h (by decide)
  | cons c rest =>
      simp only [goodKey, hk, Bool.and_eq_true] at h
      obtain ⟨⟨halpha, hsafe⟩, hitem⟩ := h
      refine ⟨by simp [hk], ?_, by simpa using hitem⟩
      simp [List.all_cons, alpha_tagSafe halpha, hsafe]


theorem sanitize_item : sanitizeTagName "item" = "item" := by decide


mutual
theorem tags_entries_sub (fs : List (String × JsVal)) (hg : goodEntries fs = true) :
    ∀ x ∈ forestTags (entriesForest fs), String.mk x ∈ tagsInEntries fs := by
  intro x hx
  match fs with
  | [] => simp [entriesForest, forestTags] at hx
  | (k, v) :: rest =>
      simp only [goodEntries, Bool.and_eq_true] at hg
      obtain ⟨⟨⟨hgk, hnt⟩, hgv⟩, hge⟩ := hg
      have hnv : isNullOrUndef v = false := goodVal_not_null hgv
      cases v with
      | null => exact absurd hgv (by decide)
      | undef => exact absurd hgv (by decide)
      | str s =>
          rw [show entriesForest ((k, .str s) :: rest)
              = .node k.data (.btext (jsString (.str s)).data) (entriesForest rest) by
            simp [entriesForest, isNullOrUndef, typeofObject]] at hx
          simp only [forestTags, bodyTags, List.nil_append, List.mem_cons] at hx
          rcases hx with hx | hx
          · subst hx; simp [tagsInEntries]
          · have := tags_entries_sub rest hge x hx
            simp only [tagsInEntries, List.mem_cons, List.mem_append]
            exact Or.inr (Or.inr this)
      | num lit =>
          rw [show entriesForest ((k, .num lit) :: rest)
              = .node k.data (.btext (jsString (.num lit)).data) (entriesForest rest) by
            simp [entriesForest, isNullOrUndef, typeofObject]] at hx
          simp only [forestTags, bodyTags, List.nil_append, List.mem_cons] at hx
          rcases hx with hx | hx
          · subst hx; simp [tagsInEntries]
          · have := tags_entries_sub rest hge x hx
            simp only [tagsInEntries, List.mem_cons, List.mem_append]
            exact Or.inr (Or.inr this)
      | bool b =>
          rw [show entriesForest ((k, .bool b) :: rest)
              = .node k.data (.btext (jsString (.bool b)).data) (entriesForest rest) by
            simp [entriesForest, isNullOrUndef, typeofObject]] at hx
          simp only [forestTags, bodyTags, List.nil_append, List.mem_cons] at hx
          rcases hx with hx | hx
          · subst hx; simp [tagsInEntries]
          · have := tags_entries_sub rest hge x hx
            simp only [tagsInEntries, List.mem_cons, List.mem_append]
            exact Or.inr (Or.inr this)
      | obj fs' =>
          obtain ⟨hne', hge', hkd'⟩ := goodVal_obj hgv
          have hdrop := good_not_dropped fs' hne' hge'
          have hsan := sanitize_goodKey k hgk
          rw [show entriesForest ((k, .obj fs') :: rest)
              = .node k.data (.bforest (entriesForest fs')) (entriesForest rest) by
            simp [entriesForest, valForest, isNullOrUndef, typeofObject, hdrop, hsan,
              forestAppend]] at hx
          simp only [forestTags, bodyTags, List.mem_cons, List.mem_append] at hx
          rcases hx with hx | hx | hx
          · subst hx; simp [tagsInEntries]
          · have := tags_entries_sub fs' hge' x hx
            simp only [tagsInEntries, tagsIn, List.mem_cons, List.mem_append]
            exact Or.inr (Or.inl this)
          · have := tags_entries_sub rest hge x hx
            simp only [tagsInEntries, List.mem_cons, List.mem_append]
            exact Or.inr (Or.inr this)
      | arr xs' =>
          obtain ⟨hne', hel'⟩ := goodVal_arr hgv
          have hsan := sanitize_goodKey k hgk
          rw [show entriesForest ((k, .arr xs') :: rest)
              = .node k.data (.bforest (itemsForest xs')) (entriesForest rest) by
            simp [entriesForest, valForest, isNullOrUndef, typeofObject, hsan,
              forestAppend]] at hx
          simp only [forestTags, bodyTags, List.mem_cons, List.mem_append] at hx
          rcases hx with hx | hx | hx
          · subst hx; simp [tagsInEntries]
          · have h2 := tags_items_sub xs' hel' x hx
            simp only [tagsInEntries, tagsIn, List.mem_cons, List.mem_append]
            rcases h2 with h2 | h2
            · exact Or.inr (Or.inl (Or.inl h2))
            · exact Or.inr (Or.inl (Or.inr h2))
          · have := tags_entries_sub rest hge x hx
            simp only [tagsInEntries, List.mem_cons, List.mem_append]
            exact Or.inr (Or.inr this)
termination_by sizeOf fs

theorem tags_items_sub (xs : List JsVal) (hg : goodElems xs = true) :
    ∀ x ∈ forestTags (itemsForest xs),
      String.mk x = "item" ∨ String.mk x ∈ tagsInElems xs := by
  intro x hx
  match xs with
  | [] => simp [itemsForest, forestTags] at hx
  | x0 :: rest =>
      simp only [goodElems, Bool.and_eq_true] at hg
      obtain ⟨⟨haf, hgv⟩, hge⟩ := hg
      cases x0 with
      | null => exact absurd hgv (by decide)
      | undef => exact absurd hgv (by decide)
      | arr ys => simp [arrFree] at haf
      | str s =>
          rw [show itemsForest (.str s :: rest)
              = .node "item".data (.btext (jsString (.str s)).data) (itemsForest rest) by
            simp [itemsForest, typeofObject, sanitize_item]] at hx
          simp only [forestTags, bodyTags, List.nil_append, List.mem_cons] at hx
          rcases hx with hx | hx
          · exact Or.inl (by rw [hx])
          · rcases tags_items_sub rest hge x hx with h2 | h2
            · exact Or.inl h2
            · exact Or.inr (by simp only [tagsInElems, List.mem_append]; exact Or.inr h2)
      | num lit =>
          rw [show itemsForest (.num lit :: rest)
              = .node "item".data (.btext (jsString (.num lit)).data) (itemsForest rest) by
            simp [itemsForest, typeofObject, sanitize_item]] at hx
          simp only [forestTags, bodyTags, List.nil_append, List.mem_cons] at hx
          rcases hx with hx | hx
          · exact Or.inl (by rw [hx])
          · rcases tags_items_sub rest hge x hx with h2 | h2
            · exact Or.inl h2
            · exact Or.inr (by simp only [tagsInElems, List.mem_append]; exact Or.inr h2)
      | bool b =>
          rw [show itemsForest (.bool b :: rest)
              = .node "item".data (.btext (jsString (.bool b)).data) (itemsForest rest) by
            simp [itemsForest, typeofObject, sanitize_item]] at hx
          simp only [forestTags, bodyTags, List.nil_append, List.mem_cons] at hx
          rcases hx with hx | hx
          · exact Or.inl (by rw [hx])
          · rcases tags_items_sub rest hge x hx with h2 | h2
            · exact Or.inl h2
            · exact Or.inr (by simp only [tagsInElems, List.mem_append]; exact Or.inr h2)
      | obj fs'' =>
          obtain ⟨hne'', hge'', hkd''⟩ := goodVal_obj hgv
          have hdrop := good_not_dropped fs'' hne'' hge''
          rw [show itemsForest (.obj fs'' :: rest)
              = .node "item".data (.bforest (entriesForest fs'')) (itemsForest rest) by
            simp [itemsForest, valForest, typeofObject, hdrop, sanitize_item]] at hx
          simp only [forestTags, bodyTags, List.mem_cons, List.mem_append] at hx
          rcases hx with hx | hx | hx
          · exact Or.inl (by rw [hx])
          · have := tags_entries_sub fs'' hge'' x hx
            refine Or.inr ?_
            simp only [tagsInElems, tagsIn, List.mem_append]
            exact Or.inl this
          · rcases tags_items_sub rest hge x hx with h2 | h2
            · exact Or.inl h2
            · exact Or.inr (by simp only [tagsInElems, List.mem_append]; exact Or.inr h2)
termination_by sizeOf xs
end

mutual
theorem item_free_val (v : JsVal) (ha : arrFree v = true) (hg : goodVal v = true) :
    "item" ∉ tagsIn v := by
  cases v with
  | null => simp [tagsIn]
  | undef => simp [tagsIn]
  | str s => simp [tagsIn]
  | num lit => simp [tagsIn]
  | bool b => simp [tagsIn]
  | arr xs => simp [arrFree] at ha
  | obj fs =>
      obtain ⟨hne, hge, hkd⟩ := goodVal_obj hg
      have ha2 : arrFreeEntries fs = true := by simpa [arrFree] using ha
      simpa [tagsIn] using item_free_entries fs ha2 hge
termination_by sizeOf v

theorem item_free_entries (fs : List (String × JsVal)) (ha : arrFreeEntries fs = true)
    (hg : goodEntries fs = true) : "item" ∉ tagsInEntries fs := by
  match fs with
  | [] => simp [tagsInEntries]
  | (k, v) :: rest =>
      simp only [goodEntries, Bool.and_eq_true] at hg
      obtain ⟨⟨⟨hgk, hnt⟩, hgv⟩, hge⟩ := hg
      simp only [arrFreeEntries, Bool.and_eq_true] at ha
      obtain ⟨haf, har⟩ := ha
      simp only [tagsInEntries, List.mem_cons, List.mem_append]
      rintro (h | h | h)
      · have hki := (goodKey_parts k hgk).2.2
        exact hki h.symm
      · exact item_free_val v haf hgv h
      · exact item_free_entries rest har hge h
termination_by sizeOf fs
end

mutual
theorem entriesForest_wf (fs : List (String × JsVal)) (hg : goodEntries fs = true) :
    wfForest (entriesForest fs) = true := by
  match fs with
  | [] => simp [entriesForest, wfForest]
  | (k, v) :: rest =>
      simp only [goodEntries, Bool.and_eq_true] at hg
      obtain ⟨⟨⟨hgk, hnt⟩, hgv⟩, hge⟩ := hg
      obtain ⟨hkne, hksafe, hki⟩ := goodKey_parts k hgk
      have hkdata : (!k.data.isEmpty) = true := by
        cases hkd : k.data with
        | nil => exact absurd hkd hkne
        | cons a l => rfl
      have hnotk : k ∉ tagsIn v := by
        intro hmem
        have := (by simpa using hnt : k ∉ tagsIn v)
        exact this hmem
      cases v with
      | null => exact absurd hgv (by decide)
      | undef => exact absurd hgv (by decide)
      | str s =>
          rw [show entriesForest ((k, .str s) :: rest)
              = .node k.data (.btext (jsString (.str s)).data) (entriesForest rest) by
            simp [entriesForest, isNullOrUndef, typeofObject]]
          simp only [wfForest, wfBody, bodyTags, Bool.and_eq_true]
          refine ⟨⟨⟨⟨hkdata, hksafe⟩, by simp⟩, ?_⟩, entriesForest_wf rest hge⟩
          simpa using scalar_no_lt (.str s) rfl hgv
      | num lit =>
          rw [show entriesForest ((k, .num lit) :: rest)
              = .node k.data (.btext (jsString (.num lit)).data) (entriesForest rest) by
            simp [entriesForest, isNullOrUndef, typeofObject]]
          simp only [wfForest, wfBody, bodyTags, Bool.and_eq_true]
          refine ⟨⟨⟨⟨hkdata, hksafe⟩, by simp⟩, ?_⟩, entriesForest_wf rest hge⟩
          simpa using scalar_no_lt (.num lit) rfl hgv
      | bool b =>
          rw [show entriesForest ((k, .bool b) :: rest)
              = .node k.data (.btext (jsString (.bool b)).data) (entriesForest rest) by
            simp [entriesForest, isNullOrUndef, typeofObject]]
          simp only [wfForest, wfBody, bodyTags, Bool.and_eq_true]
          refine ⟨⟨⟨⟨hkdata, hksafe⟩, by simp⟩, ?_⟩, entriesForest_wf rest hge⟩
          simpa using scalar_no_lt (.bool b) rfl hgv
      | obj fs' =>
          obtain ⟨hne', hge', hkd'⟩ := goodVal_obj hgv
          have hdrop := good_not_dropped fs' hne' hge'
          have hsan := sanitize_goodKey k hgk
          rw [show entriesForest ((k, .obj fs') :: rest)
              = .node k.data (.bforest (entriesForest fs')) (entriesForest rest) by
            simp [entriesForest, valForest, isNullOrUndef, typeofObject, hdrop, hsan,
              forestAppend]]
          simp only [wfForest, wfBody, bodyTags, Bool.and_eq_true]
          refine ⟨⟨⟨⟨hkdata, hksafe⟩, ?_⟩, entriesForest_wf fs' hge'⟩,
            entriesForest_wf rest hge⟩
          simp only [Bool.not_eq_true']
          cases hcon : (forestTags (entriesForest fs')).contains k.data with
          | false => rfl
          | true =>
              exfalso
              have hmem : k.data ∈ forestTags (entriesForest fs') := by simpa using hcon
              have h2 := tags_entries_sub fs' hge' k.data hmem
              rw [show String.mk k.data = k from rfl] at h2
              exact hnotk (by simpa [tagsIn] using h2)
      | arr xs' =>
          obtain ⟨hne', hel'⟩ := goodVal_arr hgv
          have hsan := sanitize_goodKey k hgk
          rw [show entriesForest ((k, .arr xs') :: rest)
              = .node k.data (.bforest (itemsForest xs')) (entriesForest rest) by
            simp [entriesForest, valForest, isNullOrUndef, typeofObject, hsan,
              forestAppend]]
          simp only [wfForest, wfBody, bodyTags, Bool.and_eq_true]
          refine ⟨⟨⟨⟨hkdata, hksafe⟩, ?_⟩, itemsForest_wf xs' hel'⟩,
            entriesForest_wf rest hge⟩
          simp only [Bool.not_eq_true']
          cases hcon : (forestTags (itemsForest xs')).contains k.data with
          | false => rfl
          | true =>
              exfalso
              have hmem : k.data ∈ forestTags (itemsForest xs') := by simpa using hcon
              rcases tags_items_sub xs' hel' k.data hmem with h2 | h2
              · rw [show String.mk k.data = k from rfl] at h2
                exact hki h2
              · rw [show String.mk k.data = k from rfl] at h2
                exact hnotk (by simp [tagsIn, h2])
termination_by sizeOf fs

theorem itemsForest_wf (xs : List JsVal) (hg : goodElems xs = true) :
    wfForest (itemsForest xs) = true := by
  match xs with
  | [] => simp [itemsForest, wfForest]
  | x0 :: rest =>
      simp only [goodElems, Bool.and_eq_true] at hg
      obtain ⟨⟨haf, hgv⟩, hge⟩ := hg
      cases x0 with
      | null => exact absurd hgv (by decide)
      | undef => exact absurd hgv (by decide)
      | arr ys => simp [arrFree] at haf
      | str s =>
          rw [show itemsForest (.str s :: rest)
              = .node "item".data (.btext (jsString (.str s)).data) (itemsForest rest) by
            simp [itemsForest, typeofObject, sanitize_item]]
          simp only [wfForest, wfBody, bodyTags, Bool.and_eq_true]
          refine ⟨⟨⟨⟨by decide, by decide⟩, by simp⟩, ?_⟩, itemsForest_wf rest hge⟩
          simpa using scalar_no_lt (.str s) rfl hgv
      | num lit =>
          rw [show itemsForest (.num lit :: rest)
              = .node "item".data (.btext (jsString (.num lit)).data) (itemsForest rest) by
            simp [itemsForest, typeofObject, sanitize_item]]
          simp only [wfForest, wfBody, bodyTags, Bool.and_eq_true]
          refine ⟨⟨⟨⟨by decide, by decide⟩, by simp⟩, ?_⟩, itemsForest_wf rest hge⟩
          simpa using scalar_no_lt (.num lit) rfl hgv
      | bool b =>
          rw [show itemsForest (.bool b :: rest)
              = .node "item".data (.btext (jsString (.bool b)).data) (itemsForest rest) by
            simp [itemsForest, typeofObject, sanitize_item]]
          simp only [wfForest, wfBody, bodyTags, Bool.and_eq_true]
          refine ⟨⟨⟨⟨by decide, by decide⟩, by simp⟩, ?_⟩, itemsForest_wf rest hge⟩
          simpa using scalar_no_lt (.bool b) rfl hgv
      | obj fs'' =>
          obtain ⟨hne'', hge'', hkd''⟩ := goodVal_obj hgv
          have hdrop := good_not_dropped fs'' hne'' hge''
          rw [show itemsForest (.obj fs'' :: rest)
              = .node "item".data (.bforest (entriesForest fs'')) (itemsForest rest) by
            simp [itemsForest, valForest, typeofObject, hdrop, sanitize_item]]
          simp only [wfForest, wfBody, bodyTags, Bool.and_eq_true]
          refine ⟨⟨⟨⟨by decide, by decide⟩, ?_⟩, entriesForest_wf fs'' hge''⟩,
            itemsForest_wf rest hge⟩
          simp only [Bool.not_eq_true']
          cases hcon : (forestTags (entriesForest fs'')).contains "item".data with
          | false => rfl
          | true =>
              exfalso
              have hmem : "item".data ∈ forestTags (entriesForest fs'') := by simpa using hcon
              have h2 := tags_entries_sub fs'' hge'' "item".data hmem
              rw [show String.mk "item".data = "item" from rfl] at h2
              have ha2 : arrFreeEntries fs'' = true := by simpa [arrFree] using haf
              exact item_free_entries fs'' ha2 hge'' h2
termination_by sizeOf xs
end

theorem insertTagResult_absent : ∀ (acc : List (String × JsVal)) (k : String) (c : JsVal),
    (∀ kv ∈ acc, kv.1 ≠ k) → insertTagResult acc k c = acc ++ [(k, c)] := by
  intro acc k c h
  induction acc with
  | nil => rfl
  | cons kv rest ih =>
      obtain ⟨k0, v0⟩ := kv
      have hne : k0 ≠ k := h (k0, v0) (by simp)
      simp only [insertTagResult, if_neg hne]
      rw [ih (fun kv hkv => h kv (by simp [hkv]))]
      simp

theorem fold_insert_distinct : ∀ (l acc : List (String × JsVal)),
    (∀ kv ∈ l, ∀ kv' ∈ acc, kv'.1 ≠ kv.1) → keysDistinct l = true →
    l.foldl (fun a kv => insertTagResult a kv.1 kv.2) acc = acc ++ l := by
  intro l
  induction l with
  | nil => intro acc h hd; simp
  | cons kv rest ih =>
      intro acc h hd
      obtain ⟨k0, v0⟩ := kv
      simp only [List.foldl_cons]
      rw [insertTagResult_absent acc k0 v0 (fun kv' hkv' => h (k0, v0) (by simp) kv' hkv')]
      simp only [keysDistinct, Bool.and_eq_true] at hd
      obtain ⟨hnc, hdr⟩ := hd
      have hnc2 : k0 ∉ rest.map (fun kv => kv.1) := by simpa using hnc
      rw [ih (acc ++ [(k0, v0)]) ?harg hdr]
      · simp
      · intro kv hkv kv' hkv'
        rcases List.mem_append.mp hkv' with hin | hin
        · exact h kv (by simp [hkv]) kv' hin
        · have hkv'eq : kv' = (k0, v0) := by simpa using hin
          subst hkv'eq
          intro heq
          apply hnc2
          rw [show k0 = kv.1 from heq]
          exact List.mem_map_of_mem (fun kv => kv.1) hkv

theorem fold_insert_item_arr : ∀ (l a : List JsVal),
    l.foldl (fun acc c => insertTagResult acc "item" c) [("item", JsVal.arr a)]
      = [("item", JsVal.arr (a ++ l))] := by
  intro l
  induction l with
  | nil => intro a; simp
  | cons c rest ih =>
      intro a
      have hstep : insertTagResult [("item", JsVal.arr a)] "item" c
          = [("item", JsVal.arr (a ++ [c]))] := by
        simp [insertTagResult]
      simp only [List.foldl_cons, hstep]
      rw [ih (a ++ [c])]
      simp

mutual
theorem flat_len_entries (fs : List (String × JsVal)) (hg : goodEntries fs = true) :
    jsHeightEntries fs ≤ (flatToks (forestToks (entriesForest fs))).length := by
  match fs with
  | [] => simp [jsHeightEntries]
  | (k, v) :: rest =>
      simp only [goodEntries, Bool.and_eq_true] at hg
      obtain ⟨⟨⟨hgk, hnt⟩, hgv⟩, hge⟩ := hg
      have hrest := flat_len_entries rest hge
      simp only [jsHeightEntries]
      cases v with
      | null => exact absurd hgv (by decide)
      | undef => exact absurd hgv (by decide)
      | str s =>
          rw [show entriesForest ((k, .str s) :: rest)
              = .node k.data (.btext (jsString (.str s)).data) (entriesForest rest) by
            simp [entriesForest, isNullOrUndef, typeofObject]]
          refine max_le ?_ ?_
          · simp [jsHeight]
          · simp [forestToks, flatToks, flatToks_append]
            omega
      | num lit =>
          rw [show entriesForest ((k, .num lit) :: rest)
              = .node k.data (.btext (jsString (.num lit)).data) (entriesForest rest) by
            simp [entriesForest, isNullOrUndef, typeofObject]]
          refine max_le ?_ ?_
          · simp [jsHeight]
          · simp [forestToks, flatToks, flatToks_append]
            omega
      | bool b =>
          rw [show entriesForest ((k, .bool b) :: rest)
              = .node k.data (.btext (jsString (.bool b)).data) (entriesForest rest) by
            simp [entriesForest, isNullOrUndef, typeofObject]]
          refine max_le ?_ ?_
          · simp [jsHeight]
          · simp [forestToks, flatToks, flatToks_append]
            omega
      | obj fs' =>
          obtain ⟨hne', hge', hkd'⟩ := goodVal_obj hgv
          have hdrop := good_not_dropped fs' hne' hge'
          have hsan := sanitize_goodKey k hgk
          have hin := flat_len_entries fs' hge'
          rw [show entriesForest ((k, .obj fs') :: rest)
              = .node k.data (.bforest (entriesForest fs')) (entriesForest rest) by
            simp [entriesForest, valForest, isNullOrUndef, typeofObject, hdrop, hsan,
              forestAppend]]
          refine max_le ?_ ?_
          · simp only [jsHeight]
            simp [forestToks, flatToks, flatToks_append, bodyToks]
            omega
          · simp [forestToks, flatToks, flatToks_append]
            omega
      | arr xs' =>
          obtain ⟨hne', hel'⟩ := goodVal_arr hgv
          have hsan := sanitize_goodKey k hgk
          have hin := flat_len_items xs' hel'
          rw [show entriesForest ((k, .arr xs') :: rest)
              = .node k.data (.bforest (itemsForest xs')) (entriesForest rest) by
            simp [entriesForest, valForest, isNullOrUndef, typeofObject, hsan,
              forestAppend]]
          refine max_le ?_ ?_
          · simp only [jsHeight]
            simp [forestToks, flatToks, flatToks_append, bodyToks]
            omega
          · simp [forestToks, flatToks, flatToks_append]
            omega
termination_by sizeOf fs

theorem flat_len_items (xs : List JsVal) (hg : goodElems xs = true) :
    jsHeightElems xs ≤ (flatToks (forestToks (itemsForest xs))).length := by
  match xs with
  | [] => simp [jsHeightElems]
  | x0 :: rest =>
      simp only [goodElems, Bool.and_eq_true] at hg
      obtain ⟨⟨haf, hgv⟩, hge⟩ := hg
      have hrest := flat_len_items rest hge
      simp only [jsHeightElems]
      cases x0 with
      | null => exact absurd hgv (by decide)
      | undef => exact absurd hgv (by decide)
      | arr ys => simp [arrFree] at haf
      | str s =>
          rw [show itemsForest (.str s :: rest)
              = .node "item".data (.btext (jsString (.str s)).data) (itemsForest rest) by
            simp [itemsForest, typeofObject, sanitize_item]]
          refine max_le ?_ ?_
          · simp [jsHeight]
          · simp [forestToks, flatToks, flatToks_append]
            omega
      | num lit =>
          rw [show itemsForest (.num lit :: rest)
              = .node "item".data (.btext (jsString (.num lit)).data) (itemsForest rest) by
            simp [itemsForest, typeofObject, sanitize_item]]
          refine max_le ?_ ?_
          · simp [jsHeight]
          · simp [forestToks, flatToks, flatToks_append]
            omega
      | bool b =>
          rw [show itemsForest (.bool b :: rest)
              = .node "item".data (.btext (jsString (.bool b)).data) (itemsForest rest) by
            simp [itemsForest, typeofObject, sanitize_item]]
          refine max_le ?_ ?_
          · simp [jsHeight]
          · simp [forestToks, flatToks, flatToks_append]
            omega
      | obj fs'' =>
          obtain ⟨hne'', hge'', hkd''⟩ := goodVal_obj hgv
          have hdrop := good_not_dropped fs'' hne'' hge''
          have hin := flat_len_entries fs'' hge''
          rw [show itemsForest (.obj fs'' :: rest)
              = .node "item".data (.bforest (entriesForest fs'')) (itemsForest rest) by
            simp [itemsForest, valForest, typeofObject, hdrop, sanitize_item]]
          refine max_le ?_ ?_
          · simp only [jsHeight]
            simp [forestToks, flatToks, flatToks_append, bodyToks]
            omega
          · simp [forestToks, flatToks, flatToks_append]
            omega
termination_by sizeOf xs
end

theorem arrFree_not_arr {x : JsVal} (h : arrFree x = true) : ∀ ys, x ≠ JsVal.arr ys := by
  intro ys he
  subst he
  simp [arrFree] at h

theorem insert_item_nonarr (x c : JsVal) (hx : ∀ ys, x ≠ JsVal.arr ys) :
    insertTagResult [("item", x)] "item" c = [("item", JsVal.arr [x, c])] := by
  cases x with
  | arr ys => exact absurd rfl (hx ys)
  | null => simp [insertTagResult]
  | undef => simp [insertTagResult]
  | str s => simp [insertTagResult]
  | num lit => simp [insertTagResult]
  | bool b => simp [insertTagResult]
  | obj fs => simp [insertTagResult]

theorem entriesForest_node (fs : List (String × JsVal)) (hne : fs ≠ [])
    (hg : goodEntries fs = true) : ∃ t b r, entriesForest fs = .node t b r := by
  match fs with
  | [] => exact absurd rfl hne
  | (k, v) :: rest =>
      simp only [goodEntries, Bool.and_eq_true] at hg
      obtain ⟨⟨⟨hgk, hnt⟩, hgv⟩, hge⟩ := hg
      have hsan := sanitize_goodKey k hgk
      cases v with
      | null => exact absurd hgv (by decide)
      | undef => exact absurd hgv (by decide)
      | str s =>
          exact ⟨k.data, .btext (jsString (.str s)).data, entriesForest rest, by
            simp [entriesForest, isNullOrUndef, typeofObject]⟩
      | num lit =>
          exact ⟨k.data, .btext (jsString (.num lit)).data, entriesForest rest, by
            simp [entriesForest, isNullOrUndef, typeofObject]⟩
      | bool b =>
          exact ⟨k.data, .btext (jsString (.bool b)).data, entriesForest rest, by
            simp [entriesForest, isNullOrUndef, typeofObject]⟩
      | obj fs' =>
          obtain ⟨hne', hge', hkd'⟩ := goodVal_obj hgv
          have hdrop := good_not_dropped fs' hne' hge'
          exact ⟨k.data, .bforest (entriesForest fs'), entriesForest rest, by
            simp [entriesForest, valForest, isNullOrUndef, typeofObject, hdrop, hsan,
              forestAppend]⟩
      | arr xs' =>
          exact ⟨k.data, .bforest (itemsForest xs'), entriesForest rest, by
            simp [entriesForest, valForest, isNullOrUndef, typeofObject, hsan,
              forestAppend]⟩

theorem itemsForest_node (xs : List JsVal) (hne : xs ≠ []) :
    ∃ b r, itemsForest xs = .node "item".data b r := by
  match xs with
  | [] => exact absurd rfl hne
  | x :: rest =>
      exact ⟨(if typeofObject x then .bforest (valForest x none)
        else .btext (jsString x).data), itemsForest rest, by
          simp [itemsForest, sanitize_item]⟩

theorem entries_blocks (fs : List (String × JsVal)) (hg : goodEntries fs = true) :
    forestBlocks (entriesForest fs)
      = fs.map (fun kv => (kv.1.data, flatToks (bodyToks (entryBody kv.2)))) := by
  match fs with
  | [] => simp [entriesForest, forestBlocks]
  | (k, v) :: rest =>
      simp only [goodEntries, Bool.and_eq_true] at hg
      obtain ⟨⟨⟨hgk, hnt⟩, hgv⟩, hge⟩ := hg
      have hsan := sanitize_goodKey k hgk
      have ih := entries_blocks rest hge
      cases v with
      | null => exact absurd hgv (by decide)
      | undef => exact absurd hgv (by decide)
      | str s =>
          rw [show entriesForest ((k, .str s) :: rest)
              = .node k.data (.btext (jsString (.str s)).data) (entriesForest rest) by
            simp [entriesForest, isNullOrUndef, typeofObject]]
          simp [forestBlocks, entryBody, ih]
      | num lit =>
          rw [show entriesForest ((k, .num lit) :: rest)
              = .node k.data (.btext (jsString (.num lit)).data) (entriesForest rest) by
            simp [entriesForest, isNullOrUndef, typeofObject]]
          simp [forestBlocks, entryBody, ih]
      | bool b =>
          rw [show entriesForest ((k, .bool b) :: rest)
              = .node k.data (.btext (jsString (.bool b)).data) (entriesForest rest) by
            simp [entriesForest, isNullOrUndef, typeofObject]]
          simp [forestBlocks, entryBody, ih]
      | obj fs' =>
          obtain ⟨hne', hge', hkd'⟩ := goodVal_obj hgv
          have hdrop := good_not_dropped fs' hne' hge'
          rw [show entriesForest ((k, .obj fs') :: rest)
              = .node k.data (.bforest (entriesForest fs')) (entriesForest rest) by
            simp [entriesForest, valForest, isNullOrUndef, typeofObject, hdrop, hsan,
              forestAppend]]
          simp [forestBlocks, entryBody, ih]
      | arr xs' =>
          rw [show entriesForest ((k, .arr xs') :: rest)
              = .node k.data (.bforest (itemsForest xs')) (entriesForest rest) by
            simp [entriesForest, valForest, isNullOrUndef, typeofObject, hsan,
              forestAppend]]
          simp [forestBlocks, entryBody, ih]

theorem items_blocks (xs : List JsVal) (hg : goodElems xs = true) :
    forestBlocks (itemsForest xs)
      = xs.map (fun x => ("item".data, flatToks (bodyToks (entryBody x)))) := by
  match xs with
  | [] => simp [itemsForest, forestBlocks]
  | x0 :: rest =>
      simp only [goodElems, Bool.and_eq_true] at hg
      obtain ⟨⟨haf, hgv⟩, hge⟩ := hg
      have ih := items_blocks rest hge
      cases x0 with
      | null => exact absurd hgv (by decide)
      | undef => exact absurd hgv (by decide)
      | arr ys => simp [arrFree] at haf
      | str s =>
          rw [show itemsForest (.str s :: rest)
              = .node "item".data (.btext (jsString (.str s)).data) (itemsForest rest) by
            simp [itemsForest, typeofObject, sanitize_item]]
          simp [forestBlocks, entryBody, ih]
      | num lit =>
          rw [show itemsForest (.num lit :: rest)
              = .node "item".data (.btext (jsString (.num lit)).data) (itemsForest rest) by
            simp [itemsForest, typeofObject, sanitize_item]]
          simp [forestBlocks, entryBody, ih]
      | bool b =>
          rw [show itemsForest (.bool b :: rest)
              = .node "item".data (.btext (jsString (.bool b)).data) (itemsForest rest) by
            simp [itemsForest, typeofObject, sanitize_item]]
          simp [forestBlocks, entryBody, ih]
      | obj fs'' =>
          obtain ⟨hne'', hge'', hkd''⟩ := goodVal_obj hgv
          have hdrop := good_not_dropped fs'' hne'' hge''
          rw [show itemsForest (.obj fs'' :: rest)
              = .node "item".data (.bforest (entriesForest fs'')) (itemsForest rest) by
            simp [itemsForest, valForest, typeofObject, hdrop, sanitize_item]]
          simp [forestBlocks, entryBody, ih]



theorem fold_over_map {α : Type} (l : List α)
    (G : List (String × JsVal) → List Char × List Char → List (String × JsVal))
    (B : α → List Char × List Char)
    (ins : List (String × JsVal) → α → List (String × JsVal))
    (acc : List (String × JsVal))
    (h : ∀ acc' x, x ∈ l → G acc' (B x) = ins acc' x) :
    (l.map B).foldl G acc = l.foldl ins acc := by
  induction l generalizing acc with
  | nil => rfl
  | cons x rest ih =>
      simp only [List.map_cons, List.foldl_cons]
      rw [h acc x (by simp)]
      exact ih (ins acc x) (fun a' y hy => h a' y (by simp [hy]))

theorem height_mem_entries : ∀ (fs : List (String × JsVal)) (k : String) (v : JsVal),
    (k, v) ∈ fs → jsHeight v ≤ jsHeightEntries fs := by
  intro fs
  induction fs with
  | nil => intro k v h; simp at h
  | cons kv rest ih =>
      intro k v h
      obtain ⟨k0, v0⟩ := kv
      simp only [jsHeightEntries]
      rcases List.mem_cons.mp h with heq | hmem
      · injection heq with h1 h2
        rw [h2]
        exact le_max_left _ _
      · exact le_trans (ih k v hmem) (le_max_right _ _)

theorem good_mem_entries : ∀ (fs : List (String × JsVal)) (k : String) (v : JsVal),
    (k, v) ∈ fs → goodEntries fs = true → goodKey k = true ∧ goodVal v = true := by
  intro fs
  induction fs with
  | nil => intro k v h _; simp at h
  | cons kv rest ih =>
      intro k v h hg
      obtain ⟨k0, v0⟩ := kv
      simp only [goodEntries, Bool.and_eq_true] at hg
      obtain ⟨⟨⟨hgk, hnt⟩, hgv⟩, hge⟩ := hg
      rcases List.mem_cons.mp h with heq | hmem
      · injection heq with h1 h2
        exact ⟨h1 ▸ hgk, h2 ▸ hgv⟩
      · exact ih k v hmem hge

theorem height_mem_elems : ∀ (xs : List JsVal) (x : JsVal),
    x ∈ xs → jsHeight x ≤ jsHeightElems xs := by
  intro xs
  induction xs with
  | nil => intro x h; simp at h
  | cons x0 rest ih =>
      intro x h
      simp only [jsHeightElems]
      rcases List.mem_cons.mp h with heq | hmem
      · subst heq; exact le_max_left _ _
      · exact le_trans (ih x hmem) (le_max_right _ _)

theorem good_mem_elems : ∀ (xs : List JsVal) (x : JsVal),
    x ∈ xs → goodElems xs = true → arrFree x = true ∧ goodVal x = true := by
  intro xs
  induction xs with
  | nil => intro x h _; simp at h
  | cons x0 rest ih =>
      intro x h hg
      simp only [goodElems, Bool.and_eq_true] at hg
      obtain ⟨⟨haf, hgv⟩, hge⟩ := hg
      rcases List.mem_cons.mp h with heq | hmem
      · subst heq; exact ⟨haf, hgv⟩
      · exact ih x hmem hge

mutual
theorem parse_entries (fs : List (String × JsVal)) (fuel : Nat)
    (hg : goodEntries fs = true) (hkd : keysDistinct fs = true) (hne : fs ≠ [])
    (hfuel : jsHeightEntries fs ≤ fuel) :
    parseElement fuel (flatToks (forestToks (entriesForest fs))) = .obj fs := by
  obtain ⟨t, b, r, hnode⟩ := entriesForest_node fs hne hg
  rcases forest_flat_shape (entriesForest fs) with hnil | ⟨mid, hmid⟩
  · rw [hnode] at hnil
    simp at hnil
  have htrim : trimChars (flatToks (forestToks (entriesForest fs)))
      = flatToks (forestToks (entriesForest fs)) := by
    rw [hmid]
    exact trimChars_of_ends '<' '>' mid (by decide) (by decide)
  have hcont : (flatToks (forestToks (entriesForest fs))).contains '<' = true := by
    rw [hmid]
    simp
  have hscan : scanTags (flatToks (forestToks (entriesForest fs)))
      = forestBlocks (entriesForest fs) := by
    show scanTagsF (flatToks (forestToks (entriesForest fs))).length
        (flatToks (forestToks (entriesForest fs))) = _
    exact scanTagsF_forest (entriesForest fs) _ (entriesForest_wf fs hg) (le_refl _)
  obtain ⟨kv1, rest1, hfs⟩ : ∃ kv1 rest1, fs = kv1 :: rest1 := by
    cases fs with
    | nil => exact absurd rfl hne
    | cons a l => exact ⟨a, l, rfl⟩
  have hblocks : forestBlocks (entriesForest fs)
      = (kv1.1.data, flatToks (bodyToks (entryBody kv1.2)))
        :: rest1.map (fun kv => (kv.1.data, flatToks (bodyToks (entryBody kv.2)))) := by
    rw [entries_blocks fs hg, hfs, List.map_cons]
  rw [parseElement.eq_def]
  simp only [htrim, hcont, Bool.not_true, Bool.false_eq_true, if_false, hscan, hblocks]
  rw [show (kv1.1.data, flatToks (bodyToks (entryBody kv1.2)))
        :: rest1.map (fun kv => (kv.1.data, flatToks (bodyToks (entryBody kv.2))))
      = fs.map (fun kv => (kv.1.data, flatToks (bodyToks (entryBody kv.2)))) by
    rw [hfs, List.map_cons]]
  rw [fold_over_map fs _ _ (fun a kv => insertTagResult a kv.1 kv.2)]
  · rw [fold_insert_distinct fs [] (by simp) hkd]
    simp only [List.nil_append]
    rw [hfs]
    obtain ⟨k1, v1⟩ := kv1
    cases rest1 with
    | nil =>
        have hk1 : goodKey k1 = true := by
          rw [hfs] at hg
          simp only [goodEntries, Bool.and_eq_true] at hg
          exact hg.1.1.1
        have hki : k1 ≠ "item" := (goodKey_parts k1 hk1).2.2
        simp [hki]
    | cons kv2 rest2 =>
        obtain ⟨k2, v2⟩ := kv2
        rfl
  · intro acc' kv hkv
    obtain ⟨k, v⟩ := kv
    obtain ⟨hvk, hvv⟩ := good_mem_entries fs k v hkv hg
    have hhv : jsHeight v ≤ fuel := le_trans (height_mem_entries fs k v hkv) hfuel
    cases v with
    | null => exact absurd hvv (by decide)
    | undef => exact absurd hvv (by decide)
    | str s =>
        simp only [entryBody, bodyToks, flatToks_tch]
        rw [scalar_trim (.str s) rfl hvv]
        rw [if_neg (by rw [scalar_no_lt (.str s) rfl hvv]; simp)]
        rw [coerce_scalar_good (.str s) rfl hvv]
        rfl
    | num lit =>
        simp only [entryBody, bodyToks, flatToks_tch]
        rw [scalar_trim (.num lit) rfl hvv]
        rw [if_neg (by rw [scalar_no_lt (.num lit) rfl hvv]; simp)]
        rw [coerce_scalar_good (.num lit) rfl hvv]
        rfl
    | bool bb =>
        simp only [entryBody, bodyToks, flatToks_tch]
        rw [scalar_trim (.bool bb) rfl hvv]
        rw [if_neg (by rw [scalar_no_lt (.bool bb) rfl hvv]; simp)]
        rw [coerce_scalar_good (.bool bb) rfl hvv]
        rfl
    | obj fs' =>
        obtain ⟨hne', hge', hkd'⟩ := goodVal_obj hvv
        simp only [entryBody, bodyToks]
        obtain ⟨t', b', r', hnode'⟩ := entriesForest_node fs' hne' hge'
        rcases forest_flat_shape (entriesForest fs') with hnil | ⟨mid', hmid'⟩
        · rw [hnode'] at hnil
          simp at hnil
        rw [show trimChars (flatToks (forestToks (entriesForest fs')))
            = flatToks (forestToks (entriesForest fs')) by
          rw [hmid']
          exact trimChars_of_ends '<' '>' mid' (by decide) (by decide)]
        rw [if_pos (by rw [hmid']; simp)]
        cases fuel with
        | zero =>
            simp only [jsHeight] at hhv
            omega
        | succ f' =>
            show insertTagResult acc' k
                (parseElement f' (flatToks (forestToks (entriesForest fs'))))
              = insertTagResult acc' k (JsVal.obj fs')
            rw [parse_entries fs' f' hge' hkd' hne'
              (by simp only [jsHeight] at hhv; omega)]
    | arr xs' =>
        obtain ⟨hne', hel'⟩ := goodVal_arr hvv
        simp only [entryBody, bodyToks]
        obtain ⟨b', r', hnode'⟩ := itemsForest_node xs' hne'
        rcases forest_flat_shape (itemsForest xs') with hnil | ⟨mid', hmid'⟩
        · rw [hnode'] at hnil
          simp at hnil
        rw [show trimChars (flatToks (forestToks (itemsForest xs')))
            = flatToks (forestToks (itemsForest xs')) by
          rw [hmid']
          exact trimChars_of_ends '<' '>' mid' (by decide) (by decide)]
        rw [if_pos (by rw [hmid']; simp)]
        cases fuel with
        | zero =>
            simp only [jsHeight] at hhv
            omega
        | succ f' =>
            show insertTagResult acc' k
                (parseElement f' (flatToks (forestToks (itemsForest xs'))))
              = insertTagResult acc' k (JsVal.arr xs')
            rw [parse_items xs' f' hel' hne'
              (by simp only [jsHeight] at hhv; omega)]
termination_by sizeOf fs
decreasing_by
  all_goals
    first
      | (have hsz := List.sizeOf_lt_of_mem hkv
         simp at hsz
         omega)
      | (have hsz := List.sizeOf_lt_of_mem hx
         simp at hsz
         omega)

theorem parse_items (xs : List JsVal) (fuel : Nat) (hg : goodElems xs = true)
    (hne : xs ≠ []) (hfuel : jsHeightElems xs ≤ fuel) :
    parseElement fuel (flatToks (forestToks (itemsForest xs))) = .arr xs := by
  obtain ⟨b, r, hnode⟩ := itemsForest_node xs hne
  rcases forest_flat_shape (itemsForest xs) with hnil | ⟨mid, hmid⟩
  · rw [hnode] at hnil
    simp at hnil
  have htrim : trimChars (flatToks (forestToks (itemsForest xs)))
      = flatToks (forestToks (itemsForest xs)) := by
    rw [hmid]
    exact trimChars_of_ends '<' '>' mid (by decide) (by decide)
  have hcont : (flatToks (forestToks (itemsForest xs))).contains '<' = true := by
    rw [hmid]
    simp
  have hscan : scanTags (flatToks (forestToks (itemsForest xs)))
      = forestBlocks (itemsForest xs) := by
    show scanTagsF (flatToks (forestToks (itemsForest xs))).length
        (flatToks (forestToks (itemsForest xs))) = _
    exact scanTagsF_forest (itemsForest xs) _ (itemsForest_wf xs hg) (le_refl _)
  obtain ⟨x1, rest1, hxs⟩ : ∃ x1 rest1, xs = x1 :: rest1 := by
    cases xs with
    | nil => exact absurd rfl hne
    | cons a l => exact ⟨a, l, rfl⟩
  have hblocks : forestBlocks (itemsForest xs)
      = ("item".data, flatToks (bodyToks (entryBody x1)))
        :: rest1.map (fun x => ("item".data, flatToks (bodyToks (entryBody x)))) := by
    rw [items_blocks xs hg, hxs, List.map_cons]
  rw [parseElement.eq_def]
  simp only [htrim, hcont, Bool.not_true, Bool.false_eq_true, if_false, hscan, hblocks]
  rw [show ("item".data, flatToks (bodyToks (entryBody x1)))
        :: rest1.map (fun x => ("item".data, flatToks (bodyToks (entryBody x))))
      = xs.map (fun x => ("item".data, flatToks (bodyToks (entryBody x)))) by
    rw [hxs, List.map_cons]]
  rw [fold_over_map xs _ _ (fun a c => insertTagResult a "item" c)]
  · have hgood : goodElems (x1 :: rest1) = true := by rw [← hxs]; exact hg
    simp only [goodElems, Bool.and_eq_true] at hgood
    rw [hxs]
    cases rest1 with
    | nil =>
        simp only [List.foldl_cons, List.foldl_nil]
        have haf : arrFree x1 = true := hgood.1.1
        cases x1 with
        | arr ys => simp [arrFree] at haf
        | null => rfl
        | undef => rfl
        | str s => rfl
        | num lit => rfl
        | bool bb => rfl
        | obj fs'' => rfl
    | cons x2 rest2 =>
        have h1 : arrFree x1 = true := hgood.1.1
        simp only [List.foldl_cons]
        rw [show insertTagResult ([] : List (String × JsVal)) "item" x1
            = [("item", x1)] from rfl]
        rw [insert_item_nonarr x1 x2 (arrFree_not_arr h1)]
        rw [fold_insert_item_arr rest2 [x1, x2]]
        show JsVal.arr ([x1, x2] ++ rest2) = JsVal.arr (x1 :: x2 :: rest2)
        simp
  · intro acc' x hx
    obtain ⟨hax, hvx⟩ := good_mem_elems xs x hx hg
    have hhx : jsHeight x ≤ fuel := le_trans (height_mem_elems xs x hx) hfuel
    cases x with
    | null => exact absurd hvx (by decide)
    | undef => exact absurd hvx (by decide)
    | arr ys => simp [arrFree] at hax
    | str s =>
        simp only [entryBody, bodyToks, flatToks_tch]
        rw [scalar_trim (.str s) rfl hvx]
        rw [if_neg (by rw [scalar_no_lt (.str s) rfl hvx]; simp)]
        rw [coerce_scalar_good (.str s) rfl hvx]
        rfl
    | num lit =>
        simp only [entryBody, bodyToks, flatToks_tch]
        rw [scalar_trim (.num lit) rfl hvx]
        rw [if_neg (by rw [scalar_no_lt (.num lit) rfl hvx]; simp)]
        rw [coerce_scalar_good (.num lit) rfl hvx]
        rfl
    | bool bb =>
        simp only [entryBody, bodyToks, flatToks_tch]
        rw [scalar_trim (.bool bb) rfl hvx]
        rw [if_neg (by rw [scalar_no_lt (.bool bb) rfl hvx]; simp)]
        rw [coerce_scalar_good (.bool bb) rfl hvx]
        rfl
    | obj fs'' =>
        obtain ⟨hne'', hge'', hkd''⟩ := goodVal_obj hvx
        simp only [entryBody, bodyToks]
        obtain ⟨t', b', r', hnode'⟩ := entriesForest_node fs'' hne'' hge''
        rcases forest_flat_shape (entriesForest fs'') with hnil | ⟨mid', hmid'⟩
        · rw [hnode'] at hnil
          simp at hnil
        rw [show trimChars (flatToks (forestToks (entriesForest fs'')))
            = flatToks (forestToks (entriesForest fs'')) by
          rw [hmid']
          exact trimChars_of_ends '<' '>' mid' (by decide) (by decide)]
        rw [if_pos (by rw [hmid']; simp)]
        cases fuel with
        | zero =>
            simp only [jsHeight] at hhx
            omega
        | succ f' =>
            show insertTagResult acc' "item"
                (parseElement f' (flatToks (forestToks (entriesForest fs''))))
              = insertTagResult acc' "item" (JsVal.obj fs'')
            rw [parse_entries fs'' f' hge'' hkd'' hne''
              (by simp only [jsHeight] at hhx; omega)]
termination_by sizeOf xs
decreasing_by
  all_goals
    first
      | (have hsz := List.sizeOf_lt_of_mem hkv
         simp at hsz
         omega)
      | (have hsz := List.sizeOf_lt_of_mem hx
         simp at hsz
         omega)
end

/-- C1 (amended): the round trip `xmlToObj (objToXml v)` is the identity on the
values of `goodRoot`: nonempty mappings, at every level, whose keys are
distinct, start with a letter, use only `[A-Za-z0-9_]`, are not `item`, and
do not reoccur as a tag inside their own value's encoding; whose sequences
are nonempty and contain no nested sequence; and whose scalars are booleans,
unsigned integer/decimal numeric literals, or trim-invariant strings free of
angle brackets that are not boolean or numeric literals.  (On other values
the claim's unrestricted identity fails — see
`decode_encode_not_identity_on_root_scalar`.) -/
theorem decode_encode_roundTrip_good (v : JsVal) (h : goodRoot v = true) :
    xmlToObj (objToXml v none) = v := by
  cases v with
  | null => simp [goodRoot] at h
  | undef => simp [goodRoot] at h
  | str s => simp [goodRoot] at h
  | num lit => simp [goodRoot] at h
  | bool b => simp [goodRoot] at h
  | arr xs => simp [goodRoot] at h
  | obj fs =>
      have hgv : goodVal (.obj fs) = true := by simpa [goodRoot] using h
      obtain ⟨hne, hge, hkd⟩ := goodVal_obj hgv
      have hdrop := good_not_dropped fs hne hge
      have hdata : (objToXml (.obj fs) none).data
          = flatToks (forestToks (entriesForest fs)) := by
        show objToXmlChars (.obj fs) none = flatToks (forestToks (entriesForest fs))
        rw [entriesForest_chars fs]
        simp [objToXmlChars, hdrop]
      simp only [xmlToObj]
      rw [hdata]
      exact parse_entries fs _ hge hkd hne (flat_len_entries fs hge)

/-- Witness for C1 (amended): a concrete good mapping with a string, a number,
a boolean, a sequence and a nested mapping round-trips to itself. -/
theorem decode_encode_roundTrip_good_witness :
    goodRoot (JsVal.obj [("name", .str "hello world"), ("count", .num "42"),
      ("flag", .bool true), ("tags", .arr [.str "alpha", .num "3.5"]),
      ("nested", .obj [("inner", .str "x")])]) = true ∧
    xmlToObj (objToXml (JsVal.obj [("name", .str "hello world"), ("count", .num "42"),
      ("flag", .bool true), ("tags", .arr [.str "alpha", .num "3.5"]),
      ("nested", .obj [("inner", .str "x")])]) none)
      = JsVal.obj [("name", .str "hello world"), ("count", .num "42"),
      ("flag", .bool true), ("tags", .arr [.str "alpha", .num "3.5"]),
      ("nested", .obj [("inner", .str "x")])] :=
  ⟨by decide, decode_encode_roundTrip_good _ (by decide)⟩
